import Mathlib

/-!
Shallow embedding of the GlobalSearch multi-strategy search engine and
proofs about its behaviour.

Embedded sources:
* src/core/models/search.py        (SearchResult, MatchType)
* src/core/search/strategies/exact.py    (tokenizer, boolean parser, ES compiler)
* src/core/search/strategies/semantic.py (semantic strategy, embedding cache)
* src/core/performance/numba_ops.py      (cosine similarity)
* src/core/search/manager.py       (SearchManager: adapters, merge, cache, suggest)

Modelling conventions:
* Python floats are modelled as exact rationals (ℚ).  Python float
  square roots (math.sqrt, `** 0.5`) are modelled by `ratSqrt`, which is
  exact on perfect squares of rationals; every concrete value exercised
  by a theorem below is a perfect square.
* Python `int` counts and limits are modelled as `Nat`.
* Code that can raise is modelled in `Except String`; the error string is
  the Python exception message.
* External collaborators (the Elasticsearch client, rapidfuzz, the
  embedding model, the candidate provider) are parameters of the embedded
  functions; `Option` models an unavailable collaborator (failed import /
  no client), mirroring the lazy-import fallbacks in the source.
-/

namespace GlobalSearch

/-- MatchType enum from src/core/models/search.py. -/
inductive MatchType where
  | EXACT
  | FUZZY
  | SEMANTIC
deriving DecidableEq

/-- SearchResult dataclass from src/core/models/search.py (fields in source order). -/
structure SearchResult where
  document_id : String
  document_title : String
  page_number : Int
  snippet : String
  relevance_score : ℚ
  match_type : MatchType
  highlighted_text : String
  topic_path : Option String := none
deriving DecidableEq

/-- Python str.strip(c): drop the character c from both ends. -/
def pyStrip (c : Char) (s : String) : String :=
  String.mk (((s.data.dropWhile (· = c)).reverse.dropWhile (· = c)).reverse)

/-- SearchResult._validate_topic_path from src/core/models/search.py. -/
def validateTopicPath (path : String) : Except String Unit :=
  if path = "" ∨ pyStrip '/' path ≠ path then
    .error "topic_path must not have leading or trailing slashes"
  else if (path.splitOn "/").filter (· ≠ "") = [] then
    .error "topic_path must contain at least one segment"
  else .ok ()

/-- SearchResult.__post_init__ validation: constructing a SearchResult either
raises ValueError or yields the record (src/core/models/search.py lines 25-31). -/
def mkSearchResult (document_id document_title : String) (page_number : Int)
    (snippet : String) (relevance_score : ℚ) (match_type : MatchType)
    (highlighted_text : String) (topic_path : Option String) :
    Except String SearchResult :=
  if page_number < 0 then .error "page_number must be >= 0"
  else if ¬ (0 ≤ relevance_score ∧ relevance_score ≤ 1) then
    .error "relevance_score must be in [0.0, 1.0]"
  else
    match topic_path with
    | none =>
        .ok ⟨document_id, document_title, page_number, snippet, relevance_score,
             match_type, highlighted_text, none⟩
    | some p =>
        match validateTopicPath p with
        | .error e => .error e
        | .ok _ =>
            .ok ⟨document_id, document_title, page_number, snippet, relevance_score,
                 match_type, highlighted_text, some p⟩

/-- Python s[:200] on a string. -/
def pyTake200 (s : String) : String := String.mk (s.data.take 200)

/-! ## Boolean query language (src/core/search/strategies/exact.py) -/

/-- Tokens produced by ExactSearchStrategy._tokenize. -/
inductive Tok where
  | lp
  | rp
  | and
  | or
  | not
  | term (s : String)
deriving DecidableEq

/-- Expression nodes _Term/_Not/_And/_Or from exact.py. -/
inductive BNode where
  | term (s : String)
  | not (c : BNode)
  | and (l r : BNode)
  | or (l r : BNode)
deriving DecidableEq

/-- Python regex \s character class (ASCII range used by the repository). -/
def isPySpace (c : Char) : Bool :=
  c = ' ' ∨ c = '\t' ∨ c = '\n' ∨ c = '\r' ∨ c = '\x0b' ∨ c = '\x0c'

/-- Python regex word character \w (ASCII), used for the \b boundary test. -/
def isWordChar (c : Char) : Bool :=
  c.isAlphanum ∨ c = '_'

/-- After a keyword, regex \b holds iff the next character is not a word character. -/
def wordBoundary (cs : List Char) : Bool :=
  match cs with
  | [] => true
  | c :: _ => ¬ isWordChar c

/-- Case-insensitive match of keyword kw (given lowercase) at the head of cs,
followed by a word boundary. -/
def kwMatches (kw : List Char) (cs : List Char) : Bool :=
  ((cs.take kw.length).map Char.toLower = kw) ∧ wordBoundary (cs.drop kw.length)

/-- Regex alternative 3 of the token pattern: (AND|OR|NOT) case-insensitive with \b. -/
def matchKw (cs : List Char) : Option (Tok × Nat) :=
  if kwMatches "and".data cs then some (.and, 3)
  else if kwMatches "or".data cs then some (.or, 2)
  else if kwMatches "not".data cs then some (.not, 3)
  else none

/-- Regex alternative 4: a double-quoted phrase "([^"]+)" (quotes stripped). -/
def matchPhrase (cs : List Char) : Option (Tok × Nat) :=
  match cs with
  | '"' :: r =>
      let content := r.takeWhile (· ≠ '"')
      if content.isEmpty then none
      else if (r.drop content.length).isEmpty then none
      else some (.term (String.mk content), content.length + 2)
  | _ => none

/-- Prepend a token to a tokenizer result. -/
def consTok (t : Tok) : Except String (List Tok) → Except String (List Tok)
  | .ok ts => .ok (t :: ts)
  | .error e => .error e

/-- ExactSearchStrategy._tokenize (exact.py lines 60-81): repeatedly match the
token regex at the current position; if no alternative matches (including at a
whitespace-only tail), raise.  The regex alternatives are tried in source
order: `(`, `)`, keywords, quoted phrase, bare term.  `fuel` only bounds the
recursion; every call consumes at least one character, so the initial fuel
`length + 1` is never exhausted. -/
def tokenizeAux : Nat → Nat → List Char → Except String (List Tok)
  | 0, _, _ => .error "tokenizer fuel exhausted"
  | Nat.succ fuel, pos, cs =>
      match cs with
      | [] => .ok []
      | _ =>
          let w := (cs.takeWhile isPySpace).length
          match cs.drop w with
          | [] => .error ("Unexpected token at position " ++ toString pos)
          | c :: r =>
              if c = '(' then consTok .lp (tokenizeAux fuel (pos + w + 1) r)
              else if c = ')' then consTok .rp (tokenizeAux fuel (pos + w + 1) r)
              else
                match matchKw (c :: r) with
                | some (t, klen) =>
                    consTok t (tokenizeAux fuel (pos + w + klen) ((c :: r).drop klen))
                | none =>
                    match matchPhrase (c :: r) with
                    | some (t, plen) =>
                        consTok t (tokenizeAux fuel (pos + w + plen) ((c :: r).drop plen))
                    | none =>
                        let b := (c :: r).takeWhile
                          (fun ch => ¬ isPySpace ch ∧ ch ≠ '(' ∧ ch ≠ ')')
                        consTok (.term (String.mk b))
                          (tokenizeAux fuel (pos + w + b.length) ((c :: r).drop b.length))

/-- ExactSearchStrategy._tokenize on a whole string. -/
def tokenize (s : String) : Except String (List Tok) :=
  tokenizeAux (s.length + 1) 0 s.data

/-- Operator precedence table (exact.py lines 91-92). -/
def prec : Tok → Nat
  | .not => 3
  | .and => 2
  | .or => 1
  | _ => 0

/-- Membership test `t in ("AND", "OR", "NOT")` used on the operator stack. -/
def isOpTok : Tok → Bool
  | .and => true
  | .or => true
  | .not => true
  | _ => false

/-- apply_op (exact.py lines 94-105): pop operands off the output stack and push
the combined node.  The head of the list is the top of the stack. -/
def applyOp : Tok → List BNode → Except String (List BNode)
  | .not, c :: out => .ok (.not c :: out)
  | .not, [] => .error "NOT missing operand"
  | .and, r :: l :: out => .ok (.and l r :: out)
  | .and, _ => .error "AND missing operands"
  | .or, r :: l :: out => .ok (.or l r :: out)
  | .or, _ => .error "OR missing operands"
  | _, _ => .error "apply_op on non-operator"

/-- Closing-parenthesis handling (exact.py lines 112-117): pop and apply
operators until the matching `(` is found; its absence is a mismatch. -/
def popUntilLp : List BNode → List Tok → Except String (List BNode × List Tok)
  | _, [] => .error "Mismatched parenthesis"
  | out, .lp :: ops => .ok (out, ops)
  | out, op :: ops =>
      match applyOp op out with
      | .error e => .error e
      | .ok out2 => popUntilLp out2 ops

/-- Operator handling (exact.py lines 118-121): pop operators of
greater-or-equal precedence before pushing the new one. -/
def popWhileGE (p : Nat) : List BNode → List Tok → Except String (List BNode × List Tok)
  | out, t :: ops =>
      if isOpTok t ∧ p ≤ prec t then
        match applyOp t out with
        | .error e => .error e
        | .ok out2 => popWhileGE p out2 ops
      else .ok (out, t :: ops)
  | out, [] => .ok (out, [])

/-- Main shunting-yard token loop (exact.py lines 107-124). -/
def mainLoop : List Tok → List BNode → List Tok → Except String (List BNode × List Tok)
  | [], out, ops => .ok (out, ops)
  | .lp :: ts, out, ops => mainLoop ts out (.lp :: ops)
  | .rp :: ts, out, ops =>
      match popUntilLp out ops with
      | .error e => .error e
      | .ok (out2, ops2) => mainLoop ts out2 ops2
  | .and :: ts, out, ops =>
      match popWhileGE (prec .and) out ops with
      | .error e => .error e
      | .ok (out2, ops2) => mainLoop ts out2 (.and :: ops2)
  | .or :: ts, out, ops =>
      match popWhileGE (prec .or) out ops with
      | .error e => .error e
      | .ok (out2, ops2) => mainLoop ts out2 (.or :: ops2)
  | .not :: ts, out, ops =>
      match popWhileGE (prec .not) out ops with
      | .error e => .error e
      | .ok (out2, ops2) => mainLoop ts out2 (.not :: ops2)
  | .term s :: ts, out, ops => mainLoop ts (.term s :: out) ops

/-- Final drain of the operator stack (exact.py lines 126-130). -/
def drainOps : List BNode → List Tok → Except String (List BNode)
  | out, [] => .ok out
  | _, .lp :: _ => .error "Mismatched parenthesis"
  | _, .rp :: _ => .error "Mismatched parenthesis"
  | out, op :: ops =>
      match applyOp op out with
      | .error e => .error e
      | .ok out2 => drainOps out2 ops

/-- ExactSearchStrategy._parse on an already tokenized input
(exact.py lines 85-134). -/
def parseTokens (ts : List Tok) : Except String BNode :=
  if ts.isEmpty then .error "Empty expression"
  else
    match mainLoop ts [] [] with
    | .error e => .error e
    | .ok (out, ops) =>
        match drainOps out ops with
        | .error e => .error e
        | .ok [n] => .ok n
        | .ok _ => .error "Invalid expression"

/-- ExactSearchStrategy._parse (exact.py lines 83-134): tokenize, then run
the shunting-yard loop. -/
def parse (s : String) : Except String BNode :=
  match tokenize s with
  | .error e => .error e
  | .ok ts => parseTokens ts

/-- Compiled Elasticsearch query structure: the dict shapes produced by
ExactSearchStrategy._to_es (exact.py lines 137-146). -/
inductive EsQ where
  | multiMatch (query : String) (fields : List String)
  | boolMust (children : List EsQ)
  | boolMustNot (children : List EsQ)
  | boolShould (children : List EsQ) (minimumShouldMatch : Nat)

/-- ExactSearchStrategy.FIELDS (exact.py line 38). -/
def FIELDS : List String := ["title^2", "content"]

/-- ExactSearchStrategy._to_es (exact.py lines 137-146). -/
def toEs : BNode → EsQ
  | .term v => .multiMatch v FIELDS
  | .not c => .boolMustNot [toEs c]
  | .and l r => .boolMust [toEs l, toEs r]
  | .or l r => .boolShould [toEs l, toEs r] 1

/-- ExactSearchStrategy.build_query (exact.py lines 47-49). -/
def buildQuery (expression : String) : Except String EsQ :=
  match parse expression with
  | .error e => .error e
  | .ok root => .ok (toEs root)

/-- Decidable equality for Except results, used to evaluate the embedded
functions at concrete inputs. -/
instance {ε α : Type} [DecidableEq ε] [DecidableEq α] : DecidableEq (Except ε α) := by
  intro a b
  cases a <;> cases b
  case error.error e1 e2 =>
    exact if h : e1 = e2 then .isTrue (by rw [h]) else .isFalse (by simp [h])
  case error.ok e1 a2 => exact .isFalse (by simp)
  case ok.error a1 e2 => exact .isFalse (by simp)
  case ok.ok a1 a2 =>
    exact if h : a1 = a2 then .isTrue (by rw [h]) else .isFalse (by simp [h])

/-! ## Numeric helpers -/

/-- Python float square root (math.sqrt, `** 0.5`) modelled exactly on perfect
squares of rationals; on other inputs the value is an unspecified constant 0.
Every concrete square root taken by a theorem in this file is a perfect
square. -/
def ratSqrt (q : ℚ) : ℚ :=
  let ns := Nat.sqrt q.num.toNat
  let ds := Nat.sqrt q.den
  if 0 ≤ q.num ∧ ns * ns = q.num.toNat ∧ ds * ds = q.den then (ns : ℚ) / (ds : ℚ) else 0

/-- SearchManager._cosine (manager.py lines 187-196). -/
def cosine (a b : List ℚ) : ℚ :=
  let num := ((a.zip b).map fun p => p.1 * p.2).sum
  let da := ratSqrt ((a.map fun x => x * x).sum)
  let db := ratSqrt ((b.map fun y => y * y).sum)
  if da = 0 ∨ db = 0 then 0 else num / (da * db)

/-- cosine_similarity_numba (numba_ops.py lines 16-37), including the shape
check that raises ValueError on mismatched lengths. -/
def cosineNumba (a b : List ℚ) : Except String ℚ :=
  if a.length ≠ b.length then .error "vector shapes must match"
  else
    let num := ((a.zip b).map fun p => p.1 * p.2).sum
    let da := (a.map fun x => x * x).sum
    let db := (b.map fun y => y * y).sum
    .ok (if da = 0 ∨ db = 0 then 0 else num / (ratSqrt da * ratSqrt db))

/-! ## Configuration (src/core/models/configuration.py) -/

/-- The SearchSettings fields consumed by the embedded search code, with
their defaults from configuration.py. -/
structure SearchSettings where
  fuzzy_accuracy_target : ℚ := 4/5
  semantic_similarity_threshold : ℚ := 7/10
  enable_spelling_correction : Bool := true
  enable_ai_search : Bool := true
  fallback_to_preencoded_only : Bool := false
deriving DecidableEq

/-- SearchRankWeights (manager.py lines 15-19). -/
structure SearchRankWeights where
  exact : ℚ := 1
  fuzzy : ℚ := 7/10
  semantic : ℚ := 9/10
deriving DecidableEq

/-! ## Elasticsearch response shape consumed by SearchManager._search_exact -/

/-- Fields read from hit["_source"]; `none` models an absent key. -/
structure EsSource where
  title : Option String := none
  content : Option String := none
  file_path : Option String := none
deriving DecidableEq

/-- One entry of resp["hits"]["hits"]. `highlightContent` is
hit["highlight"]["content"] with [] for an absent key. -/
structure EsHit where
  id : Option String := none
  score : Option ℚ := none
  source : EsSource := {}
  highlightContent : List String := []
deriving DecidableEq

/-- The backend response: resp["hits"]["hits"]. -/
structure EsResp where
  hits : List EsHit := []
deriving DecidableEq

/-! ## Association-list model of Python dict (insertion-ordered) -/

/-- Python `d.get(k)`. -/
def assocFind {κ α : Type} [DecidableEq κ] : List (κ × α) → κ → Option α
  | [], _ => none
  | (k2, v) :: rest, k => if k2 = k then some v else assocFind rest k

/-- Replace the value stored at an existing key, keeping its position. -/
def assocReplace {κ α : Type} [DecidableEq κ] : List (κ × α) → κ → α → List (κ × α)
  | [], _, _ => []
  | (k2, v) :: rest, k, v2 =>
      if k2 = k then (k2, v2) :: rest else (k2, v) :: assocReplace rest k v2

/-- Python `d[k] = v`: update in place when present, else append. -/
def assocSet {κ α : Type} [DecidableEq κ] (l : List (κ × α)) (k : κ) (v : α) :
    List (κ × α) :=
  if (assocFind l k).isSome then assocReplace l k v else l ++ [(k, v)]

/-! ## Stable sort (Python sorted / list.sort) -/

/-- Insert x before the first element y with `r x y`; `r x y` means "x may be
placed before y", chosen per call site so that this reproduces Python's
stable sort. -/
def insertBy {α : Type} (r : α → α → Bool) (x : α) : List α → List α
  | [] => [x]
  | y :: ys => if r x y then x :: y :: ys else y :: insertBy r x ys

/-- Insertion sort; with a relation `r x y = ¬(y strictly precedes x)` this is
exactly Python's stable sort. -/
def sortBy {α : Type} (r : α → α → Bool) (l : List α) : List α :=
  l.foldr (insertBy r) []

/-- Ordering used by `sorted(..., key=lambda r: r.relevance_score, reverse=True)`
(manager.py line 75): x may precede y iff y's score does not exceed x's. -/
def rankRel (x y : SearchResult) : Bool :=
  decide (y.relevance_score ≤ x.relevance_score)

/-! ## SearchManager (manager.py) -/

/-- The collaborators and configuration a SearchManager instance holds.
`es`, `ratio` and `encode` are `none` when the corresponding lazy import /
client construction failed (manager.py lines 198-219). -/
structure ManagerEnv where
  settings : SearchSettings := {}
  weights : SearchRankWeights := {}
  es : Option (String → Nat → Option String → Except String EsResp) := none
  provider : String → Nat → Except String (List (String × String)) := fun _ _ => .ok []
  ratio : Option (String → String → ℚ) := none
  encode : Option (String → Except String (List ℚ)) := none

/-- Build one SearchResult from a backend hit (manager.py lines 113-130).
Runs outside the try/except, so a validation failure raises. -/
def exactHitResult (weights : SearchRankWeights) (hit : EsHit) :
    Except String SearchResult :=
  let title := hit.source.title.getD ""
  let docId := hit.id.getD (hit.source.file_path.getD title)
  let score := hit.score.getD 0
  let snippet :=
    match hit.highlightContent with
    | s :: _ => s
    | [] => pyTake200 (hit.source.content.getD "")
  mkSearchResult docId title 0 snippet (min 1 (score / 10) * weights.exact)
    .EXACT snippet none

/-- The result-building loop of _search_exact (manager.py lines 112-131). -/
def exactHitResults (weights : SearchRankWeights) :
    List EsHit → Except String (List SearchResult)
  | [] => .ok []
  | h :: rest =>
      match exactHitResult weights h with
      | .error e => .error e
      | .ok r =>
          match exactHitResults weights rest with
          | .error e => .error e
          | .ok rs => .ok (r :: rs)

/-- SearchManager._search_exact (manager.py lines 95-131).  The returned Nat
counts backend `es.search` invocations (0 or 1).  Only the backend call
itself is inside try/except: a failing call is absorbed into [], while
response processing errors propagate. -/
def searchExact (env : ManagerEnv) (query : String) (limit : Nat)
    (topicFilter : Option String) : Except String (List SearchResult × Nat) :=
  match env.es with
  | none => .ok ([], 0)
  | some esFn =>
      match esFn query limit topicFilter with
      | .error _ => .ok ([], 1)
      | .ok resp =>
          match exactHitResults env.weights resp.hits with
          | .error e => .error e
          | .ok rs => .ok (rs, 1)

/-- The candidate loop of _search_fuzzy (manager.py lines 140-156). -/
def fuzzyResults (settings : SearchSettings) (weights : SearchRankWeights)
    (ratioFn : String → String → ℚ) (query : String) :
    List (String × String) → Except String (List SearchResult)
  | [] => .ok []
  | (docId, text) :: rest =>
      let score := ratioFn query text / 100
      if settings.fuzzy_accuracy_target ≤ score then
        match mkSearchResult docId docId 0 (pyTake200 text) (score * weights.fuzzy)
            .FUZZY (pyTake200 text) none with
        | .error e => .error e
        | .ok r =>
            match fuzzyResults settings weights ratioFn query rest with
            | .error e => .error e
            | .ok rs => .ok (r :: rs)
      else fuzzyResults settings weights ratioFn query rest

/-- SearchManager._search_fuzzy (manager.py lines 134-156).  Only the
rapidfuzz import is guarded: an unavailable library yields [], while errors
from the candidate provider or result construction propagate. -/
def searchFuzzy (env : ManagerEnv) (query : String) (limit : Nat) :
    Except String (List SearchResult) :=
  match env.ratio with
  | none => .ok []
  | some ratioFn =>
      match env.provider query (limit * 3) with
      | .error e => .error e
      | .ok cands =>
          match fuzzyResults env.settings env.weights ratioFn query cands with
          | .error e => .error e
          | .ok rs => .ok (rs.take limit)

/-- The candidate loop of _search_semantic (manager.py lines 167-185); the
returned Nat counts `model.encode` invocations inside the loop. -/
def semResults (settings : SearchSettings) (weights : SearchRankWeights)
    (enc : String → Except String (List ℚ)) (qv : List ℚ) :
    List (String × String) → Except String (List SearchResult × Nat)
  | [] => .ok ([], 0)
  | (docId, text) :: rest =>
      match enc text with
      | .error e => .error e
      | .ok dv =>
          let sim := cosine qv dv
          if settings.semantic_similarity_threshold ≤ sim then
            match mkSearchResult docId docId 0 (pyTake200 text) (sim * weights.semantic)
                .SEMANTIC (pyTake200 text) none with
            | .error e => .error e
            | .ok r =>
                match semResults settings weights enc qv rest with
                | .error e => .error e
                | .ok (rs, n) => .ok (r :: rs, n + 1)
          else
            match semResults settings weights enc qv rest with
            | .error e => .error e
            | .ok (rs, n) => .ok (rs, n + 1)

/-- SearchManager._search_semantic (manager.py lines 159-185).  The returned
Nat counts `model.encode` invocations.  An unavailable model yields ([], 0);
nothing else is guarded, so provider and encode errors propagate.  Note the
configured pre-encoded-only flag is not consulted here. -/
def searchSemanticM (env : ManagerEnv) (query : String) (limit : Nat) :
    Except String (List SearchResult × Nat) :=
  match env.encode with
  | none => .ok ([], 0)
  | some enc =>
      match enc query with
      | .error e => .error e
      | .ok qv =>
          match env.provider query (limit * 3) with
          | .error e => .error e
          | .ok cands =>
              match semResults env.settings env.weights enc qv cands with
              | .error e => .error e
              | .ok (rs, n) => .ok (rs.take limit, n + 1)

/-! ## Merge / rank / cache (SearchManager.search, manager.py lines 47-79) -/

/-- One iteration of the merge loop (manager.py lines 68-72): keep the result
with the strictly higher relevance_score; on equality the stored (first-seen)
result wins. -/
def mergeStep (m : List ((String × Int) × SearchResult)) (r : SearchResult) :
    List ((String × Int) × SearchResult) :=
  let k := (r.document_id, r.page_number)
  match assocFind m k with
  | none => m ++ [(k, r)]
  | some cur =>
      if cur.relevance_score < r.relevance_score then assocReplace m k r else m

/-- The merged dict of manager.py lines 67-72, in insertion order. -/
def mergeParts (parts : List SearchResult) : List ((String × Int) × SearchResult) :=
  parts.foldl mergeStep []

/-- Keys of the search-result cache.  The dict is declared with
(query, limit, topic_filter) keys, but line 70 of manager.py rebinds `key`, so
line 78 can also store under a (document_id, page_number) pair; both shapes
live in the same dict. -/
inductive CKey where
  | qkey (query : String) (limit : Nat) (topicFilter : Option String)
  | mkey (docId : String) (page : Int)
deriving DecidableEq

/-- The TTL cache: insertion-ordered dict of key ↦ (timestamp, ranked list). -/
abbrev Cache := List (CKey × (ℚ × List SearchResult))

/-- The cache-miss compute path of SearchManager.search (manager.py lines
54-79): run the three adapters, merge by (document_id, page_number), sort by
score descending, truncate and store.  `now` models time.time().  The final
Nat counts backend `es.search` calls.  The key stored at line 78 is the
variable `key`, which the merge loop at line 70 rebinds: it is the query key
only when `parts` is empty, and otherwise the (document_id, page_number) of
the last element of `parts`. -/
def searchCompute (env : ManagerEnv) (now ttl : ℚ) (cache : Cache)
    (query : String) (limit : Nat) (topicFilter : Option String) :
    Except String (List SearchResult × Cache × Nat) :=
  match searchExact env query limit topicFilter with
  | .error e => .error e
  | .ok (exactRs, esCalls) =>
      match (if env.settings.enable_spelling_correction then
              searchFuzzy env query limit else .ok []) with
      | .error e => .error e
      | .ok fuzzyRs =>
          match (if env.settings.enable_ai_search then
                  searchSemanticM env query limit else .ok ([], 0)) with
          | .error e => .error e
          | .ok (semRs, _) =>
              let parts := exactRs ++ fuzzyRs ++ semRs
              let merged := mergeParts parts
              let results := (sortBy rankRel (merged.map (·.2))).take limit
              let storeKey := parts.foldl
                (fun _ r => CKey.mkey r.document_id r.page_number)
                (CKey.qkey query limit topicFilter)
              let cache2 :=
                if 0 < ttl then assocSet cache storeKey (now, results) else cache
              .ok (results, cache2, esCalls)

/-- SearchManager.search (manager.py lines 47-79).  `ttl` is self._ttl (already
clamped non-negative by the constructor).  On a fresh-enough cache entry for
the (query, limit, topic_filter) key the cached list is returned with no
backend call; otherwise the compute path runs. -/
def search (env : ManagerEnv) (now ttl : ℚ) (cache : Cache) (query : String)
    (limit : Nat) (topicFilter : Option String) :
    Except String (List SearchResult × Cache × Nat) :=
  if 0 < ttl then
    match assocFind cache (CKey.qkey query limit topicFilter) with
    | some (ts, res) =>
        if now - ts ≤ ttl then .ok (res, cache, 0)
        else searchCompute env now ttl cache query limit topicFilter
    | none => searchCompute env now ttl cache query limit topicFilter
  else searchCompute env now ttl cache query limit topicFilter

/-! ## Suggestions (SearchManager.suggest, manager.py lines 81-92) -/

/-- Python str.lower() (code-point-wise lowering; ASCII in this repository). -/
def pyLower (s : String) : String := String.mk (s.data.map Char.toLower)

/-- Python str.startswith on code-point lists. -/
def listStartsWith : List Char → List Char → Bool
  | _, [] => true
  | [], _ :: _ => false
  | c :: cs, p :: ps => decide (p = c) && listStartsWith cs ps

/-- Python str.startswith. -/
def pyStartsWith (s pre : String) : Bool := listStartsWith s.data pre.data

/-- Helper for pyWords: split the remaining characters, accumulating the
current (reversed) word. -/
def wordsAux : List Char → List Char → List String
  | [], cur => if cur.isEmpty then [] else [String.mk cur.reverse]
  | c :: cs, cur =>
      if isPySpace c then
        if cur.isEmpty then wordsAux cs [] else String.mk cur.reverse :: wordsAux cs []
      else wordsAux cs (c :: cur)

/-- Python text.split(): split on whitespace runs, dropping empty pieces. -/
def pyWords (s : String) : List String := wordsAux s.data []

/-- Python string comparison: lexicographic by code point. -/
def charLt (a b : Char) : Bool := decide (a.toNat < b.toNat)

/-- Lexicographic strict order on code-point lists (Python str <). -/
def charListLt : List Char → List Char → Bool
  | [], [] => false
  | [], _ :: _ => true
  | _ :: _, [] => false
  | a :: as, b :: bs => charLt a b || (decide (a = b) && charListLt as bs)

/-- Python str <. -/
def strLtPy (a b : String) : Bool := charListLt a.data b.data

/-- Python `seen[tok] = seen.get(tok, 0) + 1` on the insertion-ordered dict. -/
def bump (seen : List (String × Nat)) (tok : String) : List (String × Nat) :=
  match assocFind seen tok with
  | none => seen ++ [(tok, 1)]
  | some n => assocReplace seen tok (n + 1)

/-- Ordering of `sorted(seen.items(), key=lambda kv: (-kv[1], kv[0]))`
(manager.py line 92): a may precede b iff (-a.count, a.token) ≤
(-b.count, b.token) lexicographically. -/
def suggRel (a b : String × Nat) : Bool :=
  decide (b.2 < a.2) || (decide (a.2 = b.2) && (strLtPy a.1 b.1 || decide (a.1 = b.1)))

/-- SearchManager.suggest (manager.py lines 81-92).  The returned Nat counts
candidate-provider invocations: an empty prefix returns [] without calling
the provider. -/
def suggest (provider : String → Nat → List (String × String)) (pfx : String)
    (limit : Nat) : List String × Nat :=
  if pfx = "" then ([], 0)
  else
    let plow := pyLower pfx
    let seen := (provider pfx (limit * 10)).foldl
      (fun acc dt => (pyWords dt.2).foldl
        (fun a tok => if pyStartsWith (pyLower tok) plow then bump a tok else a) acc) []
    (((sortBy suggRel seen).map (·.1)).take limit, 1)

/-! ## SemanticSearchStrategy (src/core/search/strategies/semantic.py) -/

/-- EmbeddingCache (semantic.py lines 21-37): bounded LRU over an ordered
dict; the front of the list is the least recently used entry. -/
structure EmbeddingCache where
  maxSize : Nat := 1000
  store : List (String × List ℚ) := []

/-- EmbeddingCache.get: a hit moves the entry to the most-recent end. -/
def EmbeddingCache.get (c : EmbeddingCache) (k : String) :
    Option (List ℚ) × EmbeddingCache :=
  match assocFind c.store k with
  | none => (none, c)
  | some v => (some v, { c with store := (c.store.filter (·.1 ≠ k)) ++ [(k, v)] })

/-- EmbeddingCache.put: insert/update at the most-recent end, then evict the
least recent entry when over capacity. -/
def EmbeddingCache.put (c : EmbeddingCache) (k : String) (v : List ℚ) :
    EmbeddingCache :=
  let st := (if (assocFind c.store k).isSome then c.store.filter (·.1 ≠ k)
             else c.store) ++ [(k, v)]
  { c with store := if c.maxSize < st.length then st.drop 1 else st }

/-- SemanticSearchStrategy._embed_text (semantic.py lines 85-91), threading
the cache and counting model.encode invocations.  `model = none` models an
unavailable sentence-transformers import, which raises here. -/
def embedText (model : Option (String → Except String (List ℚ)))
    (cache : EmbeddingCache) (text : String) :
    Except String (List ℚ × EmbeddingCache × Nat) :=
  match EmbeddingCache.get cache text with
  | (some v, cache2) => .ok (v, cache2, 0)
  | (none, cache2) =>
      match model with
      | none => .error "sentence_transformers unavailable"
      | some enc =>
          match enc text with
          | .error e => .error e
          | .ok v => .ok (v, EmbeddingCache.put cache2 text v, 1)

/-- The candidate loop of SemanticSearchStrategy.search (semantic.py lines
70-75): embed each candidate, keep those with similarity ≥ threshold. -/
def stratCands (model : Option (String → Except String (List ℚ)))
    (threshold : ℚ) (qv : List ℚ) :
    List (String × String) → EmbeddingCache →
    Except String (List (String × ℚ × String) × EmbeddingCache × Nat)
  | [], cache => .ok ([], cache, 0)
  | (docId, text) :: rest, cache =>
      match embedText model cache text with
      | .error e => .error e
      | .ok (dv, cache2, n1) =>
          match cosineNumba qv dv with
          | .error e => .error e
          | .ok sim =>
              match stratCands model threshold qv rest cache2 with
              | .error e => .error e
              | .ok (out, cache3, n2) =>
                  if threshold ≤ sim then
                    .ok ((docId, sim, text) :: out, cache3, n1 + n2)
                  else .ok (out, cache3, n1 + n2)

/-- Ordering of `out.sort(key=lambda x: x[1], reverse=True)`
(semantic.py line 76). -/
def simRel (a b : String × ℚ × String) : Bool :=
  decide (b.2.1 ≤ a.2.1)

/-- SemanticSearchStrategy.search (semantic.py lines 59-77), threading the
embedding cache and counting model.encode invocations. -/
def stratSearch (settings : SearchSettings) (threshold : ℚ)
    (provider : String → Nat → List (String × String))
    (model : Option (String → Except String (List ℚ)))
    (cache : EmbeddingCache) (query : String) (limit : Nat) :
    Except String (List (String × ℚ × String) × EmbeddingCache × Nat) :=
  if ¬ settings.enable_ai_search then .ok ([], cache, 0)
  else
    let cands := provider query (limit * 3)
    if cands.isEmpty then .ok ([], cache, 0)
    else if settings.fallback_to_preencoded_only then .ok ([], cache, 0)
    else
      match embedText model cache query with
      | .error e => .error e
      | .ok (qv, cache2, n1) =>
          match stratCands model threshold qv cands cache2 with
          | .error e => .error e
          | .ok (out, cache3, n2) =>
              .ok ((sortBy simRel out).take limit, cache3, n1 + n2)

/-- Occurrences of a token in a token sequence. -/
def countTokTs (t : Tok) : List Tok → Nat
  | [] => 0
  | s :: ts => (if s = t then 1 else 0) + countTokTs t ts

/-- Whether an Except value is a success. -/
def exOk {ε α : Type} : Except ε α → Bool
  | .ok _ => true
  | .error _ => false

/-! ## Specification-side definitions (written from the spec's words, for
comparison with the source embedding) -/

/-
Recursive-descent acceptor for the boolean grammar of spec §4.1, read as the
usual infix grammar induced by "NOT binds tighter than AND, which binds
tighter than OR; parentheses override precedence":
  expr    := orExpr
  orExpr  := andExpr (OR andExpr)*
  andExpr := unary (AND unary)*
  unary   := NOT unary | primary
  primary := TERM | ( expr )
The Nat argument is fuel; specGrammarAccepts supplies more than enough for
its input, so fuel exhaustion never decides an answer there.
-/
mutual
def specOr : Nat → List Tok → Option (List Tok)
  | 0, _ => none
  | fuel + 1, ts =>
      match specAnd fuel ts with
      | none => none
      | some rest => specOrTail fuel rest
def specOrTail : Nat → List Tok → Option (List Tok)
  | 0, _ => none
  | fuel + 1, ts =>
      match ts with
      | .or :: rest =>
          match specAnd fuel rest with
          | none => none
          | some rest2 => specOrTail fuel rest2
      | _ => some ts
def specAnd : Nat → List Tok → Option (List Tok)
  | 0, _ => none
  | fuel + 1, ts =>
      match specUnary fuel ts with
      | none => none
      | some rest => specAndTail fuel rest
def specAndTail : Nat → List Tok → Option (List Tok)
  | 0, _ => none
  | fuel + 1, ts =>
      match ts with
      | .and :: rest =>
          match specUnary fuel rest with
          | none => none
          | some rest2 => specAndTail fuel rest2
      | _ => some ts
def specUnary : Nat → List Tok → Option (List Tok)
  | 0, _ => none
  | fuel + 1, ts =>
      match ts with
      | .not :: rest => specUnary fuel rest
      | .term _ :: rest => some rest
      | .lp :: rest =>
          match specOr fuel rest with
          | some (.rp :: rest2) => some rest2
          | _ => none
      | _ => none
end

/-- A token sequence is a well-formed boolean expression of the spec's
grammar iff the recursive-descent acceptor consumes it entirely. -/
def specGrammarAccepts (ts : List Tok) : Bool :=
  match specOr (4 * (ts.length + 1)) ts with
  | some [] => true
  | _ => false

/-- Spec-side merge selection (§4.5): among the results sharing a key, the
one with the highest relevance_score, first-seen winning ties. -/
def firstMaxBy : List SearchResult → Option SearchResult
  | [] => none
  | h :: t =>
      some (t.foldl (fun b r => if b.relevance_score < r.relevance_score then r else b) h)

/-- Spec-side token stream for suggest (§4.7): whitespace tokens of the
fetched texts whose lowercase form starts with the lowercase prefix. -/
def matchingToks (provider : String → Nat → List (String × String))
    (pfx : String) (limit : Nat) : List String :=
  (((provider pfx (limit * 10)).map (fun dt => pyWords dt.2)).flatten).filter
    (fun tok => pyStartsWith (pyLower tok) (pyLower pfx))

/-- Occurrences of a token in a stream. -/
def countTok (t : String) (l : List String) : Nat := (l.filter (· = t)).length

/-- Spec-side kept-candidate list for the semantic adapter (§4.4): the
document ids of the candidates whose cosine score reaches the threshold, in
provider order. -/
def semKeptIds (settings : SearchSettings) (enc : String → Except String (List ℚ))
    (qv : List ℚ) (cands : List (String × String)) : List String :=
  cands.filterMap fun c =>
    match enc c.2 with
    | .ok dv =>
        if settings.semantic_similarity_threshold ≤ cosine qv dv then some c.1 else none
    | .error _ => none

/-- Spec-side scored-candidate list for the semantic strategy (§4.4): every
candidate annotated with the cosine score the strategy computes for it,
threading the embedding cache exactly as the strategy's loop does (no
threshold filter).  Used to state that stratSearch keeps exactly the
candidates whose score reaches the threshold. -/
def stratScored (model : Option (String → Except String (List ℚ)))
    (qv : List ℚ) :
    List (String × String) → EmbeddingCache →
    Except String (List (String × ℚ × String) × EmbeddingCache)
  | [], cache => .ok ([], cache)
  | (docId, text) :: rest, cache =>
      match embedText model cache text with
      | .error e => .error e
      | .ok (dv, cache2, _) =>
          match cosineNumba qv dv with
          | .error e => .error e
          | .ok sim =>
              match stratScored model qv rest cache2 with
              | .error e => .error e
              | .ok (out, cache3) => .ok ((docId, sim, text) :: out, cache3)

/-! ## Concrete stub collaborators used by witnesses and counterexamples -/

/-- Stub environment exercising the fuzzy adapter for the C5 witness. -/
def envW5 : ManagerEnv :=
  { ratio := some fun _ _ => 90,
    provider := fun _ _ => .ok [("D1", "helo world")] }

/-- The result the fuzzy adapter produces in envW5. -/
def rW5 : SearchResult :=
  { document_id := "D1", document_title := "D1", page_number := 0,
    snippet := "helo world", relevance_score := 63/100,
    match_type := .FUZZY, highlighted_text := "helo world" }

/-- Stub backend hit for the C1 scenario (the shape of the repository's own
_FakeES test stub, but with a non-empty hit list). -/
def esHitC1 : EsHit :=
  { id := some "1", score := some 2,
    source := { title := some "Doc ES", content := some "lorem ipsum" },
    highlightContent := ["<em>lorem</em> ipsum"] }

/-- C1 environment: exact-only search against the stub backend. -/
def envC1 : ManagerEnv :=
  { settings := { enable_spelling_correction := false, enable_ai_search := false },
    es := some (fun _ _ _ => .ok { hits := [esHitC1] }) }

/-- The ranked result the stub backend produces. -/
def rC1 : SearchResult :=
  { document_id := "1", document_title := "Doc ES", page_number := 0,
    snippet := "<em>lorem</em> ipsum", relevance_score := 1/5,
    match_type := .EXACT, highlighted_text := "<em>lorem</em> ipsum" }

/-- C6 environment: a candidate provider that raises (e.g. a timeout) while
the fuzzy similarity library is available. -/
def envC6 : ManagerEnv :=
  { provider := fun _ _ => .error "timeout",
    ratio := some fun _ _ => 0 }

/-- C6 witness environment: the backend search call itself fails. -/
def envC6w : ManagerEnv :=
  { es := some fun _ _ _ => .error "boom" }

/-- C8 environment: pre-encoded-only flag set, yet the manager still embeds. -/
def envC8 : ManagerEnv :=
  { settings := { fallback_to_preencoded_only := true },
    provider := fun _ _ => .ok [("D", "t")],
    encode := some (fun _ => .ok [1]) }

/-- The result the manager's semantic path produces in envC8. -/
def rC8 : SearchResult :=
  { document_id := "D", document_title := "D", page_number := 0,
    snippet := "t", relevance_score := 9/10,
    match_type := .SEMANTIC, highlighted_text := "t" }

/-- C9 embedding stub: candidate "a" embeds to [3/5, 4/5] (cosine 3/5 against
the query), every other text to [1, 0] (cosine 1). -/
def encC9 : String → Except String (List ℚ) :=
  fun s => if s = "a" then .ok [3/5, 4/5] else .ok [1, 0]

/-- C9 provider: the low-scoring candidate "A" first, then high-scoring "B". -/
def provC9 : String → Nat → Except String (List (String × String)) :=
  fun _ _ => .ok [("A", "a"), ("B", "b")]

/-- C9 environment with threshold 1/2. -/
def envC9 : ManagerEnv :=
  { settings := { semantic_similarity_threshold := 1/2 },
    provider := provC9,
    encode := some encC9 }

/-- The low-scoring semantic result (cosine 3/5 × weight 9/10). -/
def rC9 : SearchResult :=
  { document_id := "A", document_title := "A", page_number := 0,
    snippet := "a", relevance_score := 27/50,
    match_type := .SEMANTIC, highlighted_text := "a" }

/-- The high-scoring semantic result (cosine 1 × weight 9/10). -/
def rB9 : SearchResult :=
  { document_id := "B", document_title := "B", page_number := 0,
    snippet := "b", relevance_score := 9/10,
    match_type := .SEMANTIC, highlighted_text := "b" }

/-- C9 strategy-side provider (the strategy takes a pure provider): the
low-scoring candidate "A" first, then the high-scoring "B". -/
def provC9s : String → Nat → List (String × String) :=
  fun _ _ => [("A", "a"), ("B", "b")]

/-- The embedding cache after the strategy embeds the query "q". -/
def cacheB9 : EmbeddingCache := { store := [("q", [1, 0])] }

/-- The embedding cache after the strategy embeds both candidates too. -/
def cacheS9 : EmbeddingCache :=
  { store := [("q", [1, 0]), ("a", [3/5, 4/5]), ("b", [1, 0])] }

/-- The scored candidate list of the concrete strategy run: cosines 3/5
and 1. -/
def scoredC9 : List (String × ℚ × String) := [("A", 3/5, "a"), ("B", 1, "b")]

/-- The strategy's output in that run with limit 1: the top-scoring "B"
(unlike the manager path, which would return "A"). -/
def outC9 : List (String × ℚ × String) := [("B", 1, "b")]

/-! ## Association-list lemmas -/

theorem assocFind_append_of_found {κ α : Type} [DecidableEq κ]
    {l : List (κ × α)} {k' : κ} {v' : α} (tail : List (κ × α))
    (h : assocFind l k' = some v') : assocFind (l ++ tail) k' = some v' := by
  induction l with
  | nil => cases h
  | cons p rest ih =>
      obtain ⟨k2, v⟩ := p
      simp only [List.cons_append, assocFind] at h ⊢
      by_cases hk : k2 = k'
      · rw [if_pos hk] at h ⊢; exact h
      · rw [if_neg hk] at h ⊢; exact ih h

theorem assocFind_append_of_none {κ α : Type} [DecidableEq κ]
    {l : List (κ × α)} {k' : κ} (k : κ) (v : α)
    (h : assocFind l k' = none) :
    assocFind (l ++ [(k, v)]) k' = if k = k' then some v else none := by
  induction l with
  | nil => rfl
  | cons p rest ih =>
      obtain ⟨k2, v2⟩ := p
      simp only [List.cons_append, assocFind] at h ⊢
      by_cases hk : k2 = k'
      · rw [if_pos hk] at h; cases h
      · rw [if_neg hk] at h ⊢; exact ih h

theorem assocFind_replace_self {κ α : Type} [DecidableEq κ]
    {l : List (κ × α)} {k : κ} {v0 : α} (v : α)
    (h : assocFind l k = some v0) :
    assocFind (assocReplace l k v) k = some v := by
  induction l with
  | nil => cases h
  | cons p rest ih =>
      obtain ⟨k2, v2⟩ := p
      unfold assocFind at h
      unfold assocReplace
      by_cases hk : k2 = k
      · rw [if_pos hk]
        unfold assocFind
        rw [if_pos hk]
      · rw [if_neg hk] at h
        rw [if_neg hk]
        unfold assocFind
        rw [if_neg hk]
        exact ih h

theorem assocFind_replace_other {κ α : Type} [DecidableEq κ]
    (l : List (κ × α)) (k : κ) (v : α) {k' : κ} (hne : k' ≠ k) :
    assocFind (assocReplace l k v) k' = assocFind l k' := by
  induction l with
  | nil => rfl
  | cons p rest ih =>
      obtain ⟨k2, v2⟩ := p
      unfold assocReplace
      by_cases hk : k2 = k
      · rw [if_pos hk]
        unfold assocFind
        rw [if_neg (by rw [hk]; exact fun he => hne he.symm),
            if_neg (by rw [hk]; exact fun he => hne he.symm)]
      · rw [if_neg hk]
        unfold assocFind
        by_cases hk2 : k2 = k'
        · rw [if_pos hk2, if_pos hk2]
        · rw [if_neg hk2, if_neg hk2]; exact ih

theorem assocFind_none_iff_not_mem {κ α : Type} [DecidableEq κ]
    (l : List (κ × α)) (k : κ) :
    assocFind l k = none ↔ k ∉ l.map Prod.fst := by
  induction l with
  | nil => simp [assocFind]
  | cons p rest ih =>
      obtain ⟨k2, v2⟩ := p
      by_cases hk : k2 = k
      · simp [assocFind, hk]
      · simp only [assocFind, if_neg hk, List.map_cons, List.mem_cons, ih]
        constructor
        · intro h hc
          cases hc with
          | inl he => exact hk he.symm
          | inr hm => exact h hm
        · intro h hm
          exact h (Or.inr hm)

theorem assocReplace_map_fst {κ α : Type} [DecidableEq κ]
    (l : List (κ × α)) (k : κ) (v : α) :
    (assocReplace l k v).map Prod.fst = l.map Prod.fst := by
  induction l with
  | nil => rfl
  | cons p rest ih =>
      obtain ⟨k2, v2⟩ := p
      unfold assocReplace
      by_cases hk : k2 = k
      · rw [if_pos hk]; simp
      · rw [if_neg hk]
        simp only [List.map_cons, ih]

theorem assocFind_mem_of_nodup {κ α : Type} [DecidableEq κ] :
    ∀ {l : List (κ × α)} {k : κ} {v : α},
      (l.map Prod.fst).Nodup → (k, v) ∈ l → assocFind l k = some v := by
  intro l
  induction l with
  | nil => intro k v _ h; cases h
  | cons p rest ih =>
      intro k v hnd hm
      obtain ⟨k2, v2⟩ := p
      simp only [List.map_cons, List.nodup_cons] at hnd
      unfold assocFind
      cases hm with
      | head => rw [if_pos rfl]
      | tail _ hmem =>
          by_cases hk : k2 = k
          · exfalso
            apply hnd.1
            rw [hk]
            exact List.mem_map_of_mem Prod.fst hmem
          · rw [if_neg hk]
            exact ih hnd.2 hmem

/-! ## Stable insertion-sort lemmas -/

theorem mem_insertBy {α : Type} (r : α → α → Bool) (x : α) :
    ∀ (l : List α) (y : α), y ∈ insertBy r x l ↔ y = x ∨ y ∈ l := by
  intro l
  induction l with
  | nil => intro y; simp [insertBy]
  | cons z zs ih =>
      intro y
      unfold insertBy
      by_cases h : r x z
      · rw [if_pos h]
        exact List.mem_cons
      · rw [if_neg h]
        simp only [List.mem_cons, ih]
        tauto

theorem perm_insertBy {α : Type} (r : α → α → Bool) (x : α) :
    ∀ l : List α, (insertBy r x l).Perm (x :: l) := by
  intro l
  induction l with
  | nil => exact List.Perm.refl _
  | cons z zs ih =>
      unfold insertBy
      by_cases h : r x z
      · rw [if_pos h]
      · rw [if_neg h]
        exact (ih.cons z).trans (List.Perm.swap x z zs)

theorem perm_sortBy {α : Type} (r : α → α → Bool) (l : List α) :
    (sortBy r l).Perm l := by
  induction l with
  | nil => exact List.Perm.refl _
  | cons z zs ih =>
      exact (perm_insertBy r z (sortBy r zs)).trans (ih.cons z)

theorem pairwise_insertBy {α : Type} {R : α → α → Prop} (r : α → α → Bool) (x : α) :
    ∀ l : List α, l.Pairwise R →
      (∀ y, r x y = true → R x y) →
      (∀ y, r x y = false → R y x) →
      (∀ a b, r x a = true → R a b → R x b) →
      (insertBy r x l).Pairwise R := by
  intro l
  induction l with
  | nil =>
      intro _ h1 _ _
      exact List.pairwise_singleton R x
  | cons z zs ih =>
      intro hp h1 h2 h3
      rw [List.pairwise_cons] at hp
      unfold insertBy
      by_cases hr : r x z
      · rw [if_pos hr]
        refine List.Pairwise.cons ?_ (List.Pairwise.cons hp.1 hp.2)
        intro w hw
        cases List.mem_cons.mp hw with
        | inl he => rw [he]; exact h1 z hr
        | inr hm => exact h3 z w hr (hp.1 w hm)
      · rw [if_neg hr]
        refine List.Pairwise.cons ?_ (ih hp.2 h1 h2 h3)
        intro w hw
        cases (mem_insertBy r x zs w).mp hw with
        | inl he => rw [he]; exact h2 z (Bool.of_not_eq_true hr)
        | inr hm => exact hp.1 w hm

theorem pairwise_sortBy {α : Type} {R : α → α → Prop} (r : α → α → Bool)
    (h1 : ∀ x y, r x y = true → R x y)
    (h2 : ∀ x y, r x y = false → R y x)
    (h3 : ∀ x a b, r x a = true → R a b → R x b) :
    ∀ l : List α, (sortBy r l).Pairwise R := by
  intro l
  induction l with
  | nil => exact List.Pairwise.nil
  | cons z zs ih =>
      exact pairwise_insertBy r z (sortBy r zs) ih (h1 z) (h2 z) (h3 z)

/-! ## Score-range lemmas -/

/-- A successfully constructed SearchResult carries exactly the validated
score, which the __post_init__ check confines to [0, 1]. -/
theorem mkSearchResult_ok_score {did dt : String} {pn : Int} {sn : String}
    {rs : ℚ} {mt : MatchType} {ht : String} {tp : Option String} {r : SearchResult}
    (h : mkSearchResult did dt pn sn rs mt ht tp = .ok r) :
    r.relevance_score = rs ∧ 0 ≤ rs ∧ rs ≤ 1 := by
  unfold mkSearchResult at h
  by_cases h1 : pn < 0
  · rw [if_pos h1] at h; cases h
  · rw [if_neg h1] at h
    by_cases h2 : 0 ≤ rs ∧ rs ≤ 1
    · rw [if_neg (not_not_intro h2)] at h
      refine ⟨?_, h2⟩
      cases tp with
      | none =>
          simp only [Except.ok.injEq] at h
          rw [← h]
      | some p =>
          dsimp only at h
          cases hv : validateTopicPath p with
          | error e => rw [hv] at h; cases h
          | ok u => rw [hv] at h; simp only [Except.ok.injEq] at h; rw [← h]
    · rw [if_pos h2] at h
      cases h

/-- Every result built by the _search_exact hit loop has its score in [0,1]. -/
theorem exactHitResults_ok_bounds {w : SearchRankWeights} :
    ∀ {hits : List EsHit} {rs : List SearchResult},
      exactHitResults w hits = .ok rs →
      ∀ r ∈ rs, 0 ≤ r.relevance_score ∧ r.relevance_score ≤ 1 := by
  intro hits
  induction hits with
  | nil => intro rs h r hr; simp [exactHitResults] at h; subst h; cases hr
  | cons hd tl ih =>
      intro rs h r hr
      unfold exactHitResults at h
      cases hh : exactHitResult w hd with
      | error e => rw [hh] at h; cases h
      | ok r0 =>
          rw [hh] at h
          cases ht : exactHitResults w tl with
          | error e => rw [ht] at h; cases h
          | ok rs0 =>
              rw [ht] at h
              simp only [Except.ok.injEq] at h
              subst h
              cases hr with
              | head =>
                  have hh2 := hh
                  simp only [exactHitResult] at hh2
                  have := mkSearchResult_ok_score hh2
                  exact ⟨this.1 ▸ this.2.1, this.1 ▸ this.2.2⟩
              | tail _ hmem => exact ih ht r hmem

/-- Every result built by the _search_fuzzy candidate loop has its score
in [0,1]. -/
theorem fuzzyResults_ok_bounds {st : SearchSettings} {w : SearchRankWeights}
    {rf : String → String → ℚ} {q : String} :
    ∀ {cands : List (String × String)} {rs : List SearchResult},
      fuzzyResults st w rf q cands = .ok rs →
      ∀ r ∈ rs, 0 ≤ r.relevance_score ∧ r.relevance_score ≤ 1 := by
  intro cands
  induction cands with
  | nil => intro rs h r hr; simp [fuzzyResults] at h; subst h; cases hr
  | cons hd tl ih =>
      intro rs h r hr
      unfold fuzzyResults at h
      by_cases hc : st.fuzzy_accuracy_target ≤ rf q hd.2 / 100
      · rw [if_pos hc] at h
        cases hh : mkSearchResult hd.1 hd.1 0 (pyTake200 hd.2)
            (rf q hd.2 / 100 * w.fuzzy) .FUZZY (pyTake200 hd.2) none with
        | error e => rw [hh] at h; cases h
        | ok r0 =>
            rw [hh] at h
            cases ht : fuzzyResults st w rf q tl with
            | error e => rw [ht] at h; cases h
            | ok rs0 =>
                rw [ht] at h
                simp only [Except.ok.injEq] at h
                subst h
                cases hr with
                | head =>
                    have := mkSearchResult_ok_score hh
                    exact ⟨this.1 ▸ this.2.1, this.1 ▸ this.2.2⟩
                | tail _ hmem => exact ih ht r hmem
      · rw [if_neg hc] at h
        exact ih h r hr

/-- Every result built by the _search_semantic candidate loop has its score
in [0,1]. -/
theorem semResults_ok_bounds {st : SearchSettings} {w : SearchRankWeights}
    {enc : String → Except String (List ℚ)} {qv : List ℚ} :
    ∀ {cands : List (String × String)} {rs : List SearchResult} {n : Nat},
      semResults st w enc qv cands = .ok (rs, n) →
      ∀ r ∈ rs, 0 ≤ r.relevance_score ∧ r.relevance_score ≤ 1 := by
  intro cands
  induction cands with
  | nil =>
      intro rs n h r hr
      simp only [semResults, Except.ok.injEq, Prod.mk.injEq] at h
      rw [← h.1] at hr; cases hr
  | cons hd tl ih =>
      intro rs n h r hr
      unfold semResults at h
      cases he : enc hd.2 with
      | error e => rw [he] at h; cases h
      | ok dv =>
          rw [he] at h
          dsimp only at h
          by_cases hc : st.semantic_similarity_threshold ≤ cosine qv dv
          · rw [if_pos hc] at h
            cases hh : mkSearchResult hd.1 hd.1 0 (pyTake200 hd.2)
                (cosine qv dv * w.semantic) .SEMANTIC (pyTake200 hd.2) none with
            | error e => rw [hh] at h; cases h
            | ok r0 =>
                rw [hh] at h
                cases ht : semResults st w enc qv tl with
                | error e => rw [ht] at h; cases h
                | ok p =>
                    rw [ht] at h
                    obtain ⟨p1, p2⟩ := p
                    simp only [Except.ok.injEq, Prod.mk.injEq] at h
                    rw [← h.1] at hr
                    cases hr with
                    | head =>
                        have := mkSearchResult_ok_score hh
                        exact ⟨this.1 ▸ this.2.1, this.1 ▸ this.2.2⟩
                    | tail _ hmem => exact ih ht r hmem
          · rw [if_neg hc] at h
            cases ht : semResults st w enc qv tl with
            | error e => rw [ht] at h; cases h
            | ok p =>
                rw [ht] at h
                obtain ⟨p1, p2⟩ := p
                simp only [Except.ok.injEq, Prod.mk.injEq] at h
                rw [← h.1] at hr
                exact ih ht r hr

/-- C5: for every adapter of SearchManager (exact, fuzzy, semantic) and every
input — any backend response or raw score, any candidates, any configured
weights and thresholds — every SearchResult the adapter emits (returns) has
relevance_score in [0.0, 1.0]; the bound is enforced by the validation in
SearchResult.__post_init__, through which every emitted result passes. -/
theorem C5_adapter_scores_unit_interval
    (env : ManagerEnv) (query : String) (limit : Nat) (tf : Option String) :
    (∀ rs n, searchExact env query limit tf = .ok (rs, n) →
        ∀ r ∈ rs, 0 ≤ r.relevance_score ∧ r.relevance_score ≤ 1) ∧
    (∀ rs, searchFuzzy env query limit = .ok rs →
        ∀ r ∈ rs, 0 ≤ r.relevance_score ∧ r.relevance_score ≤ 1) ∧
    (∀ rs n, searchSemanticM env query limit = .ok (rs, n) →
        ∀ r ∈ rs, 0 ≤ r.relevance_score ∧ r.relevance_score ≤ 1) := by
  refine ⟨?_, ?_, ?_⟩
  · intro rs n h r hr
    unfold searchExact at h
    cases hes : env.es with
    | none =>
        rw [hes] at h; dsimp only at h
        simp only [Except.ok.injEq, Prod.mk.injEq] at h
        rw [← h.1] at hr; cases hr
    | some esFn =>
        rw [hes] at h; dsimp only at h
        cases hresp : esFn query limit tf with
        | error e =>
            rw [hresp] at h; dsimp only at h
            simp only [Except.ok.injEq, Prod.mk.injEq] at h
            rw [← h.1] at hr; cases hr
        | ok resp =>
            rw [hresp] at h; dsimp only at h
            cases hh : exactHitResults env.weights resp.hits with
            | error e => rw [hh] at h; cases h
            | ok rs0 =>
                rw [hh] at h
                simp only [Except.ok.injEq, Prod.mk.injEq] at h
                rw [← h.1] at hr
                exact exactHitResults_ok_bounds hh r hr
  · intro rs h r hr
    unfold searchFuzzy at h
    cases hrat : env.ratio with
    | none =>
        rw [hrat] at h; dsimp only at h
        simp only [Except.ok.injEq] at h
        rw [← h] at hr; cases hr
    | some ratioFn =>
        rw [hrat] at h; dsimp only at h
        cases hp : env.provider query (limit * 3) with
        | error e => rw [hp] at h; cases h
        | ok cands =>
            rw [hp] at h; dsimp only at h
            cases hf : fuzzyResults env.settings env.weights ratioFn query cands with
            | error e => rw [hf] at h; cases h
            | ok rs0 =>
                rw [hf] at h
                simp only [Except.ok.injEq] at h
                rw [← h] at hr
                exact fuzzyResults_ok_bounds hf r (List.take_subset _ _ hr)
  · intro rs n h r hr
    unfold searchSemanticM at h
    cases henc : env.encode with
    | none =>
        rw [henc] at h; dsimp only at h
        simp only [Except.ok.injEq, Prod.mk.injEq] at h
        rw [← h.1] at hr; cases hr
    | some enc =>
        rw [henc] at h; dsimp only at h
        cases hq : enc query with
        | error e => rw [hq] at h; cases h
        | ok qv =>
            rw [hq] at h; dsimp only at h
            cases hp : env.provider query (limit * 3) with
            | error e => rw [hp] at h; cases h
            | ok cands =>
                rw [hp] at h; dsimp only at h
                cases hs : semResults env.settings env.weights enc qv cands with
                | error e => rw [hs] at h; cases h
                | ok p =>
                    rw [hs] at h
                    obtain ⟨rs0, n0⟩ := p
                    simp only [Except.ok.injEq, Prod.mk.injEq] at h
                    rw [← h.1] at hr
                    exact semResults_ok_bounds hs r (List.take_subset _ _ hr)

/-- Witness for C5 at a concrete fuzzy-adapter run. -/
theorem C5_adapter_scores_unit_interval_witness :
    0 ≤ rW5.relevance_score ∧ rW5.relevance_score ≤ 1 := by
  have happ := (C5_adapter_scores_unit_interval envW5 "hello" 5 none).2.1
  have hok : searchFuzzy envW5 "hello" 5 = .ok [rW5] := by
    norm_num [searchFuzzy, envW5, fuzzyResults, mkSearchResult, pyTake200, rW5]
  exact happ [rW5] hok rW5 (List.mem_singleton.mpr rfl)

/-- C3: parsing then compiling the boolean expression
(apple OR "banana bread") AND NOT cherry yields a must-list of two children —
a should-list of the compiled terms apple and banana bread with
minimum-should-match = 1, and a must-not wrapping the compiled term cherry —
where each compiled term is a multi-field text-match clause over the fixed
field set (title boosted 2x, content 1x); build_query is a pure function, so
the mapping is deterministic and purely structural. -/
theorem C3_compile_end_to_end :
    buildQuery "(apple OR \"banana bread\") AND NOT cherry" =
      .ok (.boolMust
            [.boolShould [.multiMatch "apple" ["title^2", "content"],
                          .multiMatch "banana bread" ["title^2", "content"]] 1,
             .boolMustNot [.multiMatch "cherry" ["title^2", "content"]]]) := by
  rfl

/-- C1 (code bug, manager.py line 70): with TTL = 1 and a backend returning one
hit, the first search("lorem", 5) stores its result under the rebound merge
key (document_id, page) = ("1", 0) instead of the query key, so the query key
is absent from the cache, and a second identical call at time 1/2 (inside the
TTL window) invokes the backend again (its call count is 1, not 0) instead of
returning the cached list. -/
theorem C1_cache_key_shadowing_bug :
    search envC1 0 1 [] "lorem" 5 none
        = .ok ([rC1], [(CKey.mkey "1" 0, (0, [rC1]))], 1) ∧
    assocFind [(CKey.mkey "1" 0, ((0 : ℚ), [rC1]))] (CKey.qkey "lorem" 5 none)
        = none ∧
    search envC1 (1/2) 1 [(CKey.mkey "1" 0, (0, [rC1]))] "lorem" 5 none
        = .ok ([rC1], [(CKey.mkey "1" 0, ((1/2 : ℚ), [rC1]))], 1) := by
  have hk : CKey.mkey "1" 0 ≠ CKey.qkey "lorem" 5 none := by decide
  refine ⟨?_, by decide, ?_⟩ <;>
    norm_num [search, searchCompute, searchExact, envC1, esHitC1, exactHitResults,
      exactHitResult, mkSearchResult, rC1, assocFind, assocSet, assocReplace,
      mergeParts, mergeStep, sortBy, insertBy, rankRel, hk]

/-! ## C10: trailing whitespace makes the tokenizer raise -/

/-- C10 (code bug, exact.py lines 60-81): every character of "apple " is a
recognized term character or whitespace, yet tokenization raises
(ValueError "Unexpected token at position 5") because no regex alternative
matches a whitespace-only tail — the dead "Only whitespace matched; advance"
branch never fires.  Without the trailing space the same expression tokenizes
to the single term "apple". -/
theorem C10_trailing_whitespace_bug :
    tokenize "apple " = .error ("Unexpected token at position " ++ toString (5 : Nat)) ∧
    tokenize "apple" = .ok [.term "apple"] := by
  exact ⟨rfl, rfl⟩

/-- C2 counterexample: "apple NOT" and "x y AND" each contain an operator
whose infix operand position is empty (the spec grammar rejects their token
sequences), yet _parse returns an expression tree instead of raising: the
shunting-yard loop applies the trailing operator to operands found earlier
on the stack. -/
theorem C2_counterexample :
    tokenize "apple NOT" = .ok [.term "apple", .not] ∧
    specGrammarAccepts [.term "apple", .not] = false ∧
    parse "apple NOT" = .ok (.not (.term "apple")) ∧
    tokenize "x y AND" = .ok [.term "x", .term "y", .and] ∧
    specGrammarAccepts [.term "x", .term "y", .and] = false ∧
    parse "x y AND" = .ok (.and (.term "x") (.term "y")) := by
  exact ⟨rfl, by decide, rfl, rfl, by decide, rfl⟩

/-- C6 counterexample: with the fuzzy library available and a candidate
provider that raises (a backend timeout), search propagates the error to its
caller instead of absorbing it into an empty fuzzy contribution — and it is
not a parse error. -/
theorem C6_counterexample :
    search envC6 0 0 [] "q" 5 none = .error "timeout" := by
  norm_num [search, searchCompute, searchExact, searchFuzzy, searchSemanticM, envC6]

/-- C6 amended: a failure of the backend es.search call itself is absorbed
into an empty exact contribution, and an unavailable ES client, fuzzy
similarity library, or semantic model likewise yields an empty contribution;
errors from the candidate provider, the embedding encode calls, or
response processing are not absorbed (see the counterexample). -/
theorem C6_backend_error_absorption
    (env : ManagerEnv) (query : String) (limit : Nat) (tf : Option String) :
    (∀ esFn e, env.es = some esFn → esFn query limit tf = .error e →
        searchExact env query limit tf = .ok ([], 1)) ∧
    (env.es = none → searchExact env query limit tf = .ok ([], 0)) ∧
    (env.ratio = none → searchFuzzy env query limit = .ok []) ∧
    (env.encode = none → searchSemanticM env query limit = .ok ([], 0)) := by
  refine ⟨?_, ?_, ?_, ?_⟩
  · intro esFn e hes herr
    unfold searchExact
    rw [hes]; dsimp only
    rw [herr]
  · intro hes
    unfold searchExact
    rw [hes]
  · intro hrat
    unfold searchFuzzy
    rw [hrat]
  · intro henc
    unfold searchSemanticM
    rw [henc]

/-- Witness for C6 at a concrete failing backend call. -/
theorem C6_backend_error_absorption_witness :
    searchExact envC6w "q" 5 none = .ok ([], 1) :=
  (C6_backend_error_absorption envC6w "q" 5 none).1
    (fun _ _ _ => .error "boom") "boom" rfl rfl

/-- C8 counterexample: with fallback_to_preencoded_only set,
SearchManager._search_semantic still invokes the embedding provider (two
encode calls: query and candidate) and returns a non-empty list — the flag
is never consulted on the manager's semantic path. -/
theorem C8_counterexample :
    envC8.settings.fallback_to_preencoded_only = true ∧
    searchSemanticM envC8 "q" 5 = .ok ([rC8], 2) := by
  refine ⟨rfl, ?_⟩
  norm_num [searchSemanticM, envC8, semResults, cosine, ratSqrt, mkSearchResult,
    pyTake200, rC8]

/-- C8 amended: SemanticSearchStrategy.search honours the flag — whenever
fallback_to_preencoded_only is set it returns an empty list, leaves the
embedding cache untouched, and performs zero model.encode calls — while
SearchManager._search_semantic ignores the flag (see the counterexample). -/
theorem C8_preencoded_flag_strategy
    (settings : SearchSettings) (threshold : ℚ)
    (provider : String → Nat → List (String × String))
    (model : Option (String → Except String (List ℚ)))
    (cache : EmbeddingCache) (query : String) (limit : Nat)
    (hflag : settings.fallback_to_preencoded_only = true) :
    stratSearch settings threshold provider model cache query limit
      = .ok ([], cache, 0) := by
  unfold stratSearch
  simp [hflag]

/-- Witness for C8 at a concrete strategy call with the flag set. -/
theorem C8_preencoded_flag_strategy_witness :
    stratSearch { fallback_to_preencoded_only := true } (7/10)
      (fun _ _ => [("D", "t")]) (some fun _ => .ok [1]) {} "q" 5
      = .ok ([], {}, 0) :=
  C8_preencoded_flag_strategy _ _ _ _ _ _ _ rfl

/-- C9 counterexample: both candidates pass the threshold (cosines 3/5 and 1),
but SearchManager._search_semantic truncates in provider order without
sorting: with limit 1 it returns the lower-scoring first-yielded candidate
"A", not the top-scoring "B". -/
theorem C9_counterexample :
    searchSemanticM envC9 "q" 1 = .ok ([rC9], 3) ∧
    searchSemanticM envC9 "q" 2 = .ok ([rC9, rB9], 3) ∧
    rC9.relevance_score < rB9.relevance_score := by
  have h1 : ("q" : String) ≠ "a" := by decide
  have h3 : ("b" : String) ≠ "a" := by decide
  refine ⟨?_, ?_, by norm_num [rC9, rB9]⟩ <;>
    norm_num [searchSemanticM, envC9, provC9, encC9, semResults, cosine, ratSqrt,
      mkSearchResult, pyTake200, rC9, rB9, h1, h3]

/-! ## Merge lemmas (C4) -/

theorem assocFind_mergeStep_other (m : List ((String × Int) × SearchResult))
    (r : SearchResult) {k : String × Int}
    (h : (r.document_id, r.page_number) ≠ k) :
    assocFind (mergeStep m r) k = assocFind m k := by
  unfold mergeStep
  dsimp only
  cases hf : assocFind m (r.document_id, r.page_number) with
  | none =>
      dsimp only
      cases hg : assocFind m k with
      | some v => exact assocFind_append_of_found _ hg
      | none => rw [assocFind_append_of_none _ _ hg, if_neg h]
  | some cur =>
      dsimp only
      by_cases hc : cur.relevance_score < r.relevance_score
      · rw [if_pos hc]
        exact assocFind_replace_other _ _ _ (Ne.symm h)
      · rw [if_neg hc]

theorem assocFind_mergeStep_self (m : List ((String × Int) × SearchResult))
    (r : SearchResult) :
    assocFind (mergeStep m r) (r.document_id, r.page_number)
      = some (match assocFind m (r.document_id, r.page_number) with
              | none => r
              | some cur =>
                  if cur.relevance_score < r.relevance_score then r else cur) := by
  unfold mergeStep
  dsimp only
  cases hf : assocFind m (r.document_id, r.page_number) with
  | none =>
      dsimp only
      rw [assocFind_append_of_none _ _ hf, if_pos rfl]
  | some cur =>
      dsimp only
      by_cases hc : cur.relevance_score < r.relevance_score
      · rw [if_pos hc, if_pos hc]
        exact assocFind_replace_self _ hf
      · rw [if_neg hc, if_neg hc]
        exact hf

theorem firstMaxBy_append (l : List SearchResult) (r : SearchResult) :
    firstMaxBy (l ++ [r])
      = some (match firstMaxBy l with
              | none => r
              | some b =>
                  if b.relevance_score < r.relevance_score then r else b) := by
  cases l with
  | nil => rfl
  | cons h t => simp [firstMaxBy, List.foldl_append]

theorem mergeStep_nodup (m : List ((String × Int) × SearchResult))
    (r : SearchResult) (h : (m.map Prod.fst).Nodup) :
    ((mergeStep m r).map Prod.fst).Nodup := by
  unfold mergeStep
  dsimp only
  cases hf : assocFind m (r.document_id, r.page_number) with
  | none =>
      dsimp only
      rw [List.map_append]
      refine List.Nodup.append h (List.nodup_singleton _) ?_
      intro a ha hb
      simp only [List.map_cons, List.map_nil, List.mem_singleton] at hb
      rw [hb] at ha
      exact ((assocFind_none_iff_not_mem m _).mp hf) ha
  | some cur =>
      dsimp only
      by_cases hc : cur.relevance_score < r.relevance_score
      · rw [if_pos hc, assocReplace_map_fst]
        exact h
      · rw [if_neg hc]
        exact h

theorem mergeParts_foldl_nodup :
    ∀ (parts : List SearchResult) (m : List ((String × Int) × SearchResult)),
      (m.map Prod.fst).Nodup → ((parts.foldl mergeStep m).map Prod.fst).Nodup := by
  intro parts
  induction parts with
  | nil => intro m h; exact h
  | cons p ps ih =>
      intro m h
      exact ih (mergeStep m p) (mergeStep_nodup m p h)

theorem mergeParts_append_singleton (ps : List SearchResult) (r : SearchResult) :
    mergeParts (ps ++ [r]) = mergeStep (mergeParts ps) r := by
  unfold mergeParts
  rw [List.foldl_append]
  rfl

/-- C4: the merge step keys results by (document_id, page_number); the merged
dict holds exactly one result per key — the one with the highest
relevance_score among the inputs with that key, equal scores keeping the
first-seen result (firstMaxBy, written from the claim's words). -/
theorem C4_merge_dedup (parts : List SearchResult) :
    ((mergeParts parts).map Prod.fst).Nodup ∧
    ∀ k : String × Int,
      assocFind (mergeParts parts) k
        = firstMaxBy (parts.filter fun r => (r.document_id, r.page_number) = k) := by
  constructor
  · exact mergeParts_foldl_nodup parts [] (by simp)
  · intro k
    induction parts using List.reverseRecOn with
    | nil => rfl
    | append_singleton ps r ih =>
        rw [mergeParts_append_singleton, List.filter_append]
        by_cases hk : (r.document_id, r.page_number) = k
        · have hfil : List.filter (fun x => (x.document_id, x.page_number) = k) [r]
              = [r] := by simp [hk]
          rw [hfil, ← hk]
          rw [assocFind_mergeStep_self, firstMaxBy_append]
          rw [← hk] at ih
          rw [ih]
        · have hfil : List.filter (fun x => (x.document_id, x.page_number) = k) [r]
              = [] := by simp [hk]
          rw [hfil, List.append_nil, assocFind_mergeStep_other _ _ hk, ih]

/-! ## Parenthesis-balance lemmas for the shunting-yard parser (C2) -/

/-- For a non-"(" stack top, the ")"-handler applies the operator. -/
theorem popUntilLp_step (t : Tok) (hne : t ≠ .lp) (out : List BNode)
    (rest : List Tok) :
    popUntilLp out (t :: rest)
      = match applyOp t out with
        | .error e => .error e
        | .ok out2 => popUntilLp out2 rest := by
  cases t
  · exact absurd rfl hne
  all_goals rfl

/-- A successful ")"-handler run pops exactly one "(" off the stack. -/
theorem popUntilLp_lp_count :
    ∀ {ops : List Tok} {out out2 : List BNode} {ops2 : List Tok},
      popUntilLp out ops = .ok (out2, ops2) →
      countTokTs .lp ops = countTokTs .lp ops2 + 1 := by
  intro ops
  induction ops with
  | nil => intro out out2 ops2 h; cases h
  | cons t rest ih =>
      intro out out2 ops2 h
      by_cases ht : t = Tok.lp
      · subst ht
        simp only [popUntilLp, Except.ok.injEq, Prod.mk.injEq] at h
        rw [← h.2]
        simp [countTokTs]
        omega
      · rw [popUntilLp_step t ht] at h
        cases ha : applyOp t out with
        | error e => rw [ha] at h; cases h
        | ok out3 =>
            rw [ha] at h
            dsimp only at h
            have hrec := ih h
            simp [countTokTs, ht]
            omega

/-- Popping higher-precedence operators never touches a "(" on the stack. -/
theorem popWhileGE_lp_count :
    ∀ {ops : List Tok} {p : Nat} {out out2 : List BNode} {ops2 : List Tok},
      popWhileGE p out ops = .ok (out2, ops2) →
      countTokTs .lp ops2 = countTokTs .lp ops := by
  intro ops
  induction ops with
  | nil =>
      intro p out out2 ops2 h
      simp only [popWhileGE, Except.ok.injEq, Prod.mk.injEq] at h
      rw [← h.2]
  | cons t rest ih =>
      intro p out out2 ops2 h
      unfold popWhileGE at h
      by_cases hcond : isOpTok t ∧ p ≤ prec t
      · rw [if_pos hcond] at h
        cases ha : applyOp t out with
        | error e => rw [ha] at h; cases h
        | ok out3 =>
            rw [ha] at h
            dsimp only at h
            have hrec := ih h
            have hne : t ≠ Tok.lp := by
              intro he
              rw [he] at hcond
              exact Bool.noConfusion hcond.1
            simp [countTokTs, hne]
            omega
      · rw [if_neg hcond] at h
        simp only [Except.ok.injEq, Prod.mk.injEq] at h
        rw [← h.2]

/-- Main-loop invariant: a successful run turns the "(" surplus of the input
into "(" entries on the operator stack. -/
theorem mainLoop_lp_count :
    ∀ {ts : List Tok} {out : List BNode} {ops : List Tok} {out2 : List BNode}
      {ops2 : List Tok},
      mainLoop ts out ops = .ok (out2, ops2) →
      countTokTs .lp ts + countTokTs .lp ops
        = countTokTs .rp ts + countTokTs .lp ops2 := by
  intro ts
  induction ts with
  | nil =>
      intro out ops out2 ops2 h
      simp only [mainLoop, Except.ok.injEq, Prod.mk.injEq] at h
      rw [← h.2]
      simp [countTokTs]
  | cons t rest ih =>
      intro out ops out2 ops2 h
      cases t with
      | lp =>
          simp only [mainLoop] at h
          have hrec := ih h
          simp only [countTokTs] at hrec ⊢
          simp at hrec ⊢
          omega
      | rp =>
          simp only [mainLoop] at h
          cases hp : popUntilLp out ops with
          | error e => rw [hp] at h; cases h
          | ok pr =>
              obtain ⟨out3, ops3⟩ := pr
              rw [hp] at h
              dsimp only at h
              have h1 := popUntilLp_lp_count hp
              have h2 := ih h
              simp only [countTokTs] at h2 ⊢
              simp at h2 ⊢
              omega
      | and =>
          simp only [mainLoop] at h
          cases hp : popWhileGE (prec .and) out ops with
          | error e => rw [hp] at h; cases h
          | ok pr =>
              obtain ⟨out3, ops3⟩ := pr
              rw [hp] at h
              dsimp only at h
              have h1 := popWhileGE_lp_count hp
              have h2 := ih h
              simp only [countTokTs] at h2 ⊢
              simp at h2 ⊢
              omega
      | or =>
          simp only [mainLoop] at h
          cases hp : popWhileGE (prec .or) out ops with
          | error e => rw [hp] at h; cases h
          | ok pr =>
              obtain ⟨out3, ops3⟩ := pr
              rw [hp] at h
              dsimp only at h
              have h1 := popWhileGE_lp_count hp
              have h2 := ih h
              simp only [countTokTs] at h2 ⊢
              simp at h2 ⊢
              omega
      | not =>
          simp only [mainLoop] at h
          cases hp : popWhileGE (prec .not) out ops with
          | error e => rw [hp] at h; cases h
          | ok pr =>
              obtain ⟨out3, ops3⟩ := pr
              rw [hp] at h
              dsimp only at h
              have h1 := popWhileGE_lp_count hp
              have h2 := ih h
              simp only [countTokTs] at h2 ⊢
              simp at h2 ⊢
              omega
      | term s =>
          simp only [mainLoop] at h
          have hrec := ih h
          simp only [countTokTs] at hrec ⊢
          simp at hrec ⊢
          omega

/-- The final drain succeeds only when no "(" remains on the stack. -/
theorem drainOps_lp_count :
    ∀ {ops : List Tok} {out out2 : List BNode},
      drainOps out ops = .ok out2 → countTokTs .lp ops = 0 := by
  intro ops
  induction ops with
  | nil => intro out out2 h; simp [countTokTs]
  | cons t rest ih =>
      intro out out2 h
      cases t with
      | lp => simp only [drainOps] at h; cases h
      | rp => simp only [drainOps] at h; cases h
      | and =>
          simp only [drainOps] at h
          cases ha : applyOp .and out with
          | error e => rw [ha] at h; cases h
          | ok out3 =>
              rw [ha] at h
              dsimp only at h
              have := ih h
              simp [countTokTs, this]
      | or =>
          simp only [drainOps] at h
          cases ha : applyOp .or out with
          | error e => rw [ha] at h; cases h
          | ok out3 =>
              rw [ha] at h
              dsimp only at h
              have := ih h
              simp [countTokTs, this]
      | not =>
          simp only [drainOps] at h
          cases ha : applyOp .not out with
          | error e => rw [ha] at h; cases h
          | ok out3 =>
              rw [ha] at h
              dsimp only at h
              have := ih h
              simp [countTokTs, this]
      | term s =>
          simp only [drainOps] at h
          cases ha : applyOp (.term s) out with
          | error e => rw [ha] at h; cases h
          | ok out3 =>
              rw [ha] at h
              dsimp only at h
              have := ih h
              simp [countTokTs, this]

/-- A successful parse implies balanced parentheses in the token stream. -/
theorem parseTokens_ok_balanced {ts : List Tok} {n : BNode}
    (h : parseTokens ts = .ok n) :
    countTokTs .lp ts = countTokTs .rp ts := by
  unfold parseTokens at h
  by_cases he : ts.isEmpty
  · rw [if_pos he] at h; cases h
  · rw [if_neg he] at h
    cases hm : mainLoop ts [] [] with
    | error e => rw [hm] at h; cases h
    | ok pr =>
        obtain ⟨out, ops⟩ := pr
        rw [hm] at h
        dsimp only at h
        cases hd : drainOps out ops with
        | error e => rw [hd] at h; cases h
        | ok outF =>
            have h1 := mainLoop_lp_count hm
            have h2 := drainOps_lp_count hd
            simp only [countTokTs] at h1
            simp at h1
            omega

/-- C2 amended: parse fails on the empty expression, on every expression
whose token stream has unequal counts of "(" and ")", and on an operator
with too few operands on the evaluation stack (a lone NOT, a leading or
trailing AND); but an operator written after sufficient operands is
accepted — see the counterexample, where "apple NOT" parses to NOT apple. -/
theorem C2_parse_rejects_malformed :
    parse "" = .error "Empty expression" ∧
    (∀ (s : String) (ts : List Tok), tokenize s = .ok ts →
        countTokTs .lp ts ≠ countTokTs .rp ts → exOk (parse s) = false) ∧
    parse "NOT" = .error "NOT missing operand" ∧
    parse "AND apple" = .error "AND missing operands" ∧
    parse "apple AND" = .error "AND missing operands" := by
  refine ⟨rfl, ?_, rfl, rfl, rfl⟩
  intro s ts htok hne
  unfold parse
  rw [htok]
  dsimp only
  cases hp : parseTokens ts with
  | error e => rfl
  | ok nd => exact absurd (parseTokens_ok_balanced hp) hne

/-- Witness for C2 at the unmatched-parenthesis expression "(apple". -/
theorem C2_parse_rejects_malformed_witness :
    exOk (parse "(apple") = false :=
  C2_parse_rejects_malformed.2.1 "(apple" [.lp, .term "apple"] rfl (by decide)

/-! ## Semantic-adapter lemmas (C9) -/

/-- A successfully constructed SearchResult is exactly the record of its
arguments. -/
theorem mkSearchResult_ok_eq {did dt : String} {pn : Int} {sn : String}
    {rs : ℚ} {mt : MatchType} {ht : String} {tp : Option String} {r : SearchResult}
    (h : mkSearchResult did dt pn sn rs mt ht tp = .ok r) :
    r = ⟨did, dt, pn, sn, rs, mt, ht, tp⟩ := by
  unfold mkSearchResult at h
  by_cases h1 : pn < 0
  · rw [if_pos h1] at h; cases h
  · rw [if_neg h1] at h
    by_cases h2 : 0 ≤ rs ∧ rs ≤ 1
    · rw [if_neg (not_not_intro h2)] at h
      cases tp with
      | none => simp only [Except.ok.injEq] at h; rw [← h]
      | some p =>
          dsimp only at h
          cases hv : validateTopicPath p with
          | error e => rw [hv] at h; cases h
          | ok u => rw [hv] at h; simp only [Except.ok.injEq] at h; rw [← h]
    · rw [if_pos h2] at h; cases h

theorem semKeptIds_cons (st : SearchSettings) (enc : String → Except String (List ℚ))
    (qv : List ℚ) (hd : String × String) (tl : List (String × String)) :
    semKeptIds st enc qv (hd :: tl)
      = match enc hd.2 with
        | .error _ => semKeptIds st enc qv tl
        | .ok dv =>
            if st.semantic_similarity_threshold ≤ cosine qv dv
            then hd.1 :: semKeptIds st enc qv tl
            else semKeptIds st enc qv tl := by
  cases he : enc hd.2 with
  | error e => simp [semKeptIds, List.filterMap_cons, he]
  | ok dv =>
      by_cases hc : st.semantic_similarity_threshold ≤ cosine qv dv
      · simp [semKeptIds, List.filterMap_cons, he, hc]
      · simp [semKeptIds, List.filterMap_cons, he, hc]

/-- The _search_semantic candidate loop emits exactly the threshold-passing
candidates, keyed by document id, in provider order. -/
theorem semResults_ids {st : SearchSettings} {w : SearchRankWeights}
    {enc : String → Except String (List ℚ)} {qv : List ℚ} :
    ∀ {cands : List (String × String)} {rs : List SearchResult} {n : Nat},
      semResults st w enc qv cands = .ok (rs, n) →
      rs.map (fun r => r.document_id) = semKeptIds st enc qv cands := by
  intro cands
  induction cands with
  | nil =>
      intro rs n h
      simp only [semResults, Except.ok.injEq, Prod.mk.injEq] at h
      rw [← h.1]
      rfl
  | cons hd tl ih =>
      intro rs n h
      unfold semResults at h
      rw [semKeptIds_cons]
      cases he : enc hd.2 with
      | error e => rw [he] at h; cases h
      | ok dv =>
          rw [he] at h
          dsimp only at h
          dsimp only
          by_cases hc : st.semantic_similarity_threshold ≤ cosine qv dv
          · rw [if_pos hc] at h
            rw [if_pos hc]
            cases hh : mkSearchResult hd.1 hd.1 0 (pyTake200 hd.2)
                (cosine qv dv * w.semantic) .SEMANTIC (pyTake200 hd.2) none with
            | error e => rw [hh] at h; cases h
            | ok r0 =>
                rw [hh] at h
                cases ht : semResults st w enc qv tl with
                | error e => rw [ht] at h; cases h
                | ok p =>
                    obtain ⟨rs0, n0⟩ := p
                    rw [ht] at h
                    simp only [Except.ok.injEq, Prod.mk.injEq] at h
                    rw [← h.1]
                    simp only [List.map_cons, ih ht]
                    rw [mkSearchResult_ok_eq hh]
          · rw [if_neg hc] at h
            rw [if_neg hc]
            cases ht : semResults st w enc qv tl with
            | error e => rw [ht] at h; cases h
            | ok p =>
                obtain ⟨rs0, n0⟩ := p
                rw [ht] at h
                simp only [Except.ok.injEq, Prod.mk.injEq] at h
                rw [← h.1]
                exact ih ht

/-- Every candidate kept by the strategy's loop reached the threshold. -/
theorem stratCands_threshold {model : Option (String → Except String (List ℚ))}
    {threshold : ℚ} {qv : List ℚ} :
    ∀ {cands : List (String × String)} {cache : EmbeddingCache}
      {out : List (String × ℚ × String)} {cache2 : EmbeddingCache} {n : Nat},
      stratCands model threshold qv cands cache = .ok (out, cache2, n) →
      ∀ x ∈ out, threshold ≤ x.2.1 := by
  intro cands
  induction cands with
  | nil =>
      intro cache out cache2 n h x hx
      simp only [stratCands, Except.ok.injEq, Prod.mk.injEq] at h
      rw [← h.1] at hx
      cases hx
  | cons hd tl ih =>
      intro cache out cache2 n h x hx
      unfold stratCands at h
      cases hemb : embedText model cache hd.2 with
      | error e => rw [hemb] at h; cases h
      | ok tr =>
          obtain ⟨dv, cache3, n1⟩ := tr
          rw [hemb] at h
          dsimp only at h
          cases hcos : cosineNumba qv dv with
          | error e => rw [hcos] at h; cases h
          | ok sim =>
              rw [hcos] at h
              dsimp only at h
              cases hrec : stratCands model threshold qv tl cache3 with
              | error e => rw [hrec] at h; cases h
              | ok tr2 =>
                  obtain ⟨out3, cache4, n2⟩ := tr2
                  rw [hrec] at h
                  dsimp only at h
                  by_cases hc : threshold ≤ sim
                  · rw [if_pos hc] at h
                    simp only [Except.ok.injEq, Prod.mk.injEq] at h
                    rw [← h.1] at hx
                    cases List.mem_cons.mp hx with
                    | inl he => rw [he]; exact hc
                    | inr hm => exact ih hrec x hm
                  · rw [if_neg hc] at h
                    simp only [Except.ok.injEq, Prod.mk.injEq] at h
                    rw [← h.1] at hx
                    exact ih hrec x hx

/-- The spec-side scored list annotates exactly the provider's candidates,
in order. -/
theorem stratScored_ids {model : Option (String → Except String (List ℚ))}
    {qv : List ℚ} :
    ∀ {cands : List (String × String)} {cache : EmbeddingCache}
      {scored : List (String × ℚ × String)} {cacheS : EmbeddingCache},
      stratScored model qv cands cache = .ok (scored, cacheS) →
      scored.map (fun x => (x.1, x.2.2)) = cands := by
  intro cands
  induction cands with
  | nil =>
      intro cache scored cacheS h
      simp only [stratScored, Except.ok.injEq, Prod.mk.injEq] at h
      rw [← h.1]
      rfl
  | cons hd tl ih =>
      intro cache scored cacheS h
      unfold stratScored at h
      cases hemb : embedText model cache hd.2 with
      | error e => rw [hemb] at h; cases h
      | ok tr =>
          obtain ⟨dv, cache2, ne⟩ := tr
          rw [hemb] at h
          dsimp only at h
          cases hcos : cosineNumba qv dv with
          | error e => rw [hcos] at h; cases h
          | ok sim =>
              rw [hcos] at h
              dsimp only at h
              cases hrec : stratScored model qv tl cache2 with
              | error e => rw [hrec] at h; cases h
              | ok tr2 =>
                  obtain ⟨scored0, cache3⟩ := tr2
                  rw [hrec] at h
                  simp only [Except.ok.injEq, Prod.mk.injEq] at h
                  rw [← h.1]
                  simp only [List.map_cons, ih hrec]

/-- The strategy's candidate loop returns exactly the threshold filter of
the scored list (completeness and soundness together), with the same final
embedding cache. -/
theorem stratCands_filter_scored {model : Option (String → Except String (List ℚ))}
    {threshold : ℚ} {qv : List ℚ} :
    ∀ {cands : List (String × String)} {cache : EmbeddingCache}
      {out : List (String × ℚ × String)} {cache2 : EmbeddingCache} {n : Nat}
      {scored : List (String × ℚ × String)} {cacheS : EmbeddingCache},
      stratCands model threshold qv cands cache = .ok (out, cache2, n) →
      stratScored model qv cands cache = .ok (scored, cacheS) →
      out = scored.filter (fun x => threshold ≤ x.2.1) ∧ cache2 = cacheS := by
  intro cands
  induction cands with
  | nil =>
      intro cache out cache2 n scored cacheS h g
      simp only [stratCands, Except.ok.injEq, Prod.mk.injEq] at h
      simp only [stratScored, Except.ok.injEq, Prod.mk.injEq] at g
      rw [← h.1, ← h.2.1, ← g.1, ← g.2]
      exact ⟨rfl, rfl⟩
  | cons hd tl ih =>
      intro cache out cache2 n scored cacheS h g
      unfold stratCands at h
      unfold stratScored at g
      cases hemb : embedText model cache hd.2 with
      | error e => rw [hemb] at h; cases h
      | ok tr =>
          obtain ⟨dv, cacheE, n1⟩ := tr
          rw [hemb] at h g
          dsimp only at h g
          cases hcos : cosineNumba qv dv with
          | error e => rw [hcos] at h; cases h
          | ok sim =>
              rw [hcos] at h g
              dsimp only at h g
              cases hrecC : stratCands model threshold qv tl cacheE with
              | error e => rw [hrecC] at h; cases h
              | ok trC =>
                  obtain ⟨outT, cacheC, n2⟩ := trC
                  rw [hrecC] at h
                  dsimp only at h
                  cases hrecS : stratScored model qv tl cacheE with
                  | error e => rw [hrecS] at g; cases g
                  | ok trS =>
                      obtain ⟨scoredT, cacheS2⟩ := trS
                      rw [hrecS] at g
                      dsimp only at g
                      simp only [Except.ok.injEq, Prod.mk.injEq] at g
                      obtain ⟨hal1, hal2⟩ := ih hrecC hrecS
                      rw [← g.1, List.filter_cons]
                      by_cases hc : threshold ≤ sim
                      · rw [if_pos hc] at h
                        simp only [Except.ok.injEq, Prod.mk.injEq] at h
                        rw [if_pos (by simp [hc])]
                        constructor
                        · rw [← h.1, hal1]
                        · rw [← h.2.1, hal2, g.2]
                      · rw [if_neg hc] at h
                        simp only [Except.ok.injEq, Prod.mk.injEq] at h
                        rw [if_neg (by simp [hc])]
                        constructor
                        · rw [← h.1, hal1]
                        · rw [← h.2.1, hal2, g.2]

/-- C9 amended: both semantic paths keep exactly the candidates whose cosine
score reaches the configured threshold; SemanticSearchStrategy.search sorts
the kept candidates by score descending before truncating to limit — its
output is the top-limit of exactly the threshold-reaching candidates (the
second conjunct: given the run's scored candidate list, the output is the
descending sort of its threshold filter, truncated) — while
SearchManager._search_semantic truncates the kept candidates in provider
order without sorting (the counterexample exhibits the difference). -/
theorem C9_semantic_keep_and_order :
    (∀ (settings : SearchSettings) (threshold : ℚ)
        (provider : String → Nat → List (String × String))
        (model : Option (String → Except String (List ℚ)))
        (cache : EmbeddingCache) (query : String) (limit : Nat)
        (out : List (String × ℚ × String)) (cache2 : EmbeddingCache) (n : Nat),
        stratSearch settings threshold provider model cache query limit
            = .ok (out, cache2, n) →
        List.Pairwise (fun a b => b.2.1 ≤ a.2.1) out ∧
        ∀ x ∈ out, threshold ≤ x.2.1) ∧
    (∀ (settings : SearchSettings) (threshold : ℚ)
        (provider : String → Nat → List (String × String))
        (model : Option (String → Except String (List ℚ)))
        (cache : EmbeddingCache) (query : String) (limit : Nat)
        (out : List (String × ℚ × String)) (cache2 : EmbeddingCache) (n : Nat)
        (qv : List ℚ) (cacheB : EmbeddingCache) (nq : Nat)
        (scored : List (String × ℚ × String)) (cacheS : EmbeddingCache),
        settings.enable_ai_search = true →
        settings.fallback_to_preencoded_only = false →
        (provider query (limit * 3)).isEmpty = false →
        embedText model cache query = .ok (qv, cacheB, nq) →
        stratScored model qv (provider query (limit * 3)) cacheB
            = .ok (scored, cacheS) →
        stratSearch settings threshold provider model cache query limit
            = .ok (out, cache2, n) →
        scored.map (fun x => (x.1, x.2.2)) = provider query (limit * 3) ∧
        out = (sortBy simRel
                (scored.filter (fun x => threshold ≤ x.2.1))).take limit) ∧
    (∀ (env : ManagerEnv) (query : String) (limit : Nat)
        (enc : String → Except String (List ℚ)) (qv : List ℚ)
        (cands : List (String × String)) (rs : List SearchResult) (n : Nat),
        env.encode = some enc → enc query = .ok qv →
        env.provider query (limit * 3) = .ok cands →
        searchSemanticM env query limit = .ok (rs, n) →
        rs.map (fun r => r.document_id)
          = (semKeptIds env.settings enc qv cands).take limit) := by
  refine ⟨?_, ?_, ?_⟩
  · intro settings threshold provider model cache query limit out cache2 n h
    unfold stratSearch at h
    by_cases hai : settings.enable_ai_search = true
    · rw [if_neg (not_not_intro hai)] at h
      dsimp only at h
      by_cases hce : (provider query (limit * 3)).isEmpty
      · rw [if_pos hce] at h
        simp only [Except.ok.injEq, Prod.mk.injEq] at h
        rw [← h.1]
        exact ⟨List.Pairwise.nil, fun x hx => absurd hx (List.not_mem_nil x)⟩
      · rw [if_neg hce] at h
        by_cases hfl : settings.fallback_to_preencoded_only = true
        · rw [if_pos hfl] at h
          simp only [Except.ok.injEq, Prod.mk.injEq] at h
          rw [← h.1]
          exact ⟨List.Pairwise.nil, fun x hx => absurd hx (List.not_mem_nil x)⟩
        · rw [if_neg hfl] at h
          cases hemb : embedText model cache query with
          | error e => rw [hemb] at h; cases h
          | ok tr =>
              obtain ⟨qv, cacheB, n1⟩ := tr
              rw [hemb] at h
              dsimp only at h
              cases hcc : stratCands model threshold qv (provider query (limit * 3)) cacheB with
              | error e => rw [hcc] at h; cases h
              | ok tr2 =>
                  obtain ⟨out0, cacheC, n2⟩ := tr2
                  rw [hcc] at h
                  simp only [Except.ok.injEq, Prod.mk.injEq] at h
                  rw [← h.1]
                  constructor
                  · refine List.Pairwise.sublist (List.take_sublist _ _) ?_
                    refine pairwise_sortBy simRel ?_ ?_ ?_ out0
                    · intro x y hxy
                      exact of_decide_eq_true hxy
                    · intro x y hxy
                      exact le_of_not_le (of_decide_eq_false hxy)
                    · intro x a b hxa hab
                      exact le_trans hab (of_decide_eq_true hxa)
                  · intro x hx
                    have hx2 : x ∈ sortBy simRel out0 := List.take_subset _ _ hx
                    have hx3 : x ∈ out0 := (perm_sortBy simRel out0).mem_iff.mp hx2
                    exact stratCands_threshold hcc x hx3
    · rw [if_pos hai] at h
      simp only [Except.ok.injEq, Prod.mk.injEq] at h
      rw [← h.1]
      exact ⟨List.Pairwise.nil, fun x hx => absurd hx (List.not_mem_nil x)⟩
  · intro settings threshold provider model cache query limit out cache2 n
      qv cacheB nq scored cacheS hai hflag hnonempty hembed hscored hrun
    unfold stratSearch at hrun
    rw [if_neg (not_not_intro hai)] at hrun
    dsimp only at hrun
    rw [if_neg (by simp [hnonempty])] at hrun
    rw [if_neg (by simp [hflag])] at hrun
    rw [hembed] at hrun
    dsimp only at hrun
    cases hcc : stratCands model threshold qv (provider query (limit * 3)) cacheB with
    | error e => rw [hcc] at hrun; cases hrun
    | ok tr =>
        obtain ⟨out0, cacheC, n2⟩ := tr
        rw [hcc] at hrun
        simp only [Except.ok.injEq, Prod.mk.injEq] at hrun
        obtain ⟨hfil, _⟩ := stratCands_filter_scored hcc hscored
        refine ⟨stratScored_ids hscored, ?_⟩
        rw [← hrun.1, hfil]
  · intro env query limit enc qv cands rs n henc hq hp h
    unfold searchSemanticM at h
    rw [henc] at h
    dsimp only at h
    rw [hq] at h
    dsimp only at h
    rw [hp] at h
    dsimp only at h
    cases hs : semResults env.settings env.weights enc qv cands with
    | error e => rw [hs] at h; cases h
    | ok p =>
        obtain ⟨rs0, n0⟩ := p
        rw [hs] at h
        simp only [Except.ok.injEq, Prod.mk.injEq] at h
        rw [← h.1, List.map_take, semResults_ids hs]

/-- Witness for C9 at concrete runs of both semantic paths: the strategy's
output on two threshold-passing candidates with limit 1 is the top-scoring
one ("B"), the descending sort of the threshold filter of the scored list,
truncated; the manager's output on the same candidates is the first kept id
in provider order. -/
theorem C9_semantic_keep_and_order_witness :
    (scoredC9.map (fun x => (x.1, x.2.2)) = provC9s "q" (1 * 3) ∧
     outC9 = (sortBy simRel
               (scoredC9.filter (fun x => (1 : ℚ)/2 ≤ x.2.1))).take 1) ∧
    List.map (fun r => r.document_id) [rC9]
      = (semKeptIds envC9.settings encC9 [1, 0] [("A", "a"), ("B", "b")]).take 1 := by
  have h1 : ("q" : String) ≠ "a" := by decide
  have h3 : ("b" : String) ≠ "a" := by decide
  have h4 : ("q" : String) ≠ "b" := by decide
  have h5 : ("a" : String) ≠ "b" := by decide
  constructor
  · have hembed : embedText (some encC9) {} "q" = .ok ([1, 0], cacheB9, 1) := by
      norm_num [embedText, EmbeddingCache.get, EmbeddingCache.put, assocFind,
        encC9, cacheB9, h1]
    have hscored : stratScored (some encC9) [1, 0] (provC9s "q" (1 * 3)) cacheB9
        = .ok (scoredC9, cacheS9) := by
      norm_num [stratScored, provC9s, embedText, EmbeddingCache.get,
        EmbeddingCache.put, assocFind, cosineNumba, ratSqrt, encC9, cacheB9,
        cacheS9, scoredC9, h1, h3, h4, h5]
    have hrun : stratSearch {} (1/2) provC9s (some encC9) {} "q" 1
        = .ok (outC9, cacheS9, 3) := by
      norm_num [stratSearch, stratCands, provC9s, embedText, EmbeddingCache.get,
        EmbeddingCache.put, assocFind, cosineNumba, ratSqrt, encC9, sortBy,
        insertBy, simRel, outC9, cacheS9, h1, h3, h4, h5]
    exact C9_semantic_keep_and_order.2.1 {} (1/2) provC9s (some encC9) {} "q" 1
      outC9 cacheS9 3 [1, 0] cacheB9 1 scoredC9 cacheS9 rfl rfl (by decide)
      hembed hscored hrun
  · have hok : searchSemanticM envC9 "q" 1 = .ok ([rC9], 3) := by
      norm_num [searchSemanticM, envC9, provC9, encC9, semResults, cosine,
        ratSqrt, mkSearchResult, pyTake200, rC9, h1, h3]
    exact C9_semantic_keep_and_order.2.2 envC9 "q" 1 encC9 [1, 0]
      [("A", "a"), ("B", "b")] [rC9] 3 rfl (by decide) rfl hok

/-! ## Lexicographic code-point order lemmas (C7) -/

theorem char_eq_of_toNat_eq {a b : Char} (h : a.toNat = b.toNat) : a = b := by
  have hv : a.val = b.val := UInt32.toNat.inj h
  exact Char.eq_of_val_eq hv

theorem charListLt_total :
    ∀ (as bs : List Char),
      charListLt as bs = true ∨ charListLt bs as = true ∨ as = bs := by
  intro as
  induction as with
  | nil =>
      intro bs
      cases bs with
      | nil => right; right; rfl
      | cons b bs => left; rfl
  | cons a as ih =>
      intro bs
      cases bs with
      | nil => right; left; rfl
      | cons b bs =>
          rcases Nat.lt_trichotomy a.toNat b.toNat with h | h | h
          · left
            simp [charListLt, charLt, h]
          · have hab : a = b := char_eq_of_toNat_eq h
            subst hab
            rcases ih bs with h2 | h2 | h2
            · left
              simp [charListLt, charLt, h2]
            · right; left
              simp [charListLt, charLt, h2]
            · right; right
              rw [h2]
          · right; left
            simp [charListLt, charLt, h]

theorem charListLt_trans :
    ∀ (as bs cs : List Char),
      charListLt as bs = true → charListLt bs cs = true →
      charListLt as cs = true := by
  intro as
  induction as with
  | nil =>
      intro bs cs hab hbc
      cases cs with
      | nil =>
          cases bs with
          | nil => cases hab
          | cons b bs => cases hbc
      | cons c cs => rfl
  | cons a as ih =>
      intro bs cs hab hbc
      cases bs with
      | nil => cases hab
      | cons b bs =>
          cases cs with
          | nil => cases hbc
          | cons c cs =>
              simp only [charListLt, charLt, Bool.or_eq_true, Bool.and_eq_true,
                decide_eq_true_eq] at hab hbc ⊢
              rcases hab with h1 | ⟨h1, h1r⟩
              · rcases hbc with h2 | ⟨h2, h2r⟩
                · exact Or.inl (Nat.lt_trans h1 h2)
                · subst h2
                  exact Or.inl h1
              · subst h1
                rcases hbc with h2 | ⟨h2, h2r⟩
                · exact Or.inl h2
                · subst h2
                  exact Or.inr ⟨rfl, ih bs cs h1r h2r⟩

/-! ## Token-counting lemmas for suggest (C7) -/

theorem assocFind_bump_self (acc : List (String × Nat)) (a : String) :
    assocFind (bump acc a) a = some ((assocFind acc a).getD 0 + 1) := by
  unfold bump
  cases hf : assocFind acc a with
  | none =>
      dsimp only
      rw [assocFind_append_of_none _ _ hf, if_pos rfl]
      rfl
  | some n =>
      dsimp only
      rw [assocFind_replace_self _ hf]
      rfl

theorem assocFind_bump_other (acc : List (String × Nat)) (a : String) {t : String}
    (h : t ≠ a) : assocFind (bump acc a) t = assocFind acc t := by
  unfold bump
  cases hf : assocFind acc a with
  | none =>
      dsimp only
      cases hg : assocFind acc t with
      | some v => exact assocFind_append_of_found _ hg
      | none => rw [assocFind_append_of_none _ _ hg, if_neg (fun he => h he.symm)]
  | some n =>
      dsimp only
      rw [assocFind_replace_other _ _ _ h]

theorem countTok_cons_self (a : String) (toks : List String) :
    countTok a (a :: toks) = countTok a toks + 1 := by
  simp [countTok, List.filter_cons]

theorem countTok_cons_other {a t : String} (h : ¬ a = t) (toks : List String) :
    countTok t (a :: toks) = countTok t toks := by
  simp [countTok, List.filter_cons, h]

theorem foldl_bump_count :
    ∀ (toks : List String) (acc : List (String × Nat)) (t : String),
      assocFind (toks.foldl bump acc) t
        = match assocFind acc t with
          | some n => some (n + countTok t toks)
          | none =>
              if countTok t toks = 0 then none else some (countTok t toks) := by
  intro toks
  induction toks with
  | nil =>
      intro acc t
      cases hacc : assocFind acc t <;> simp [countTok, hacc]
  | cons a toks ih =>
      intro acc t
      rw [List.foldl_cons, ih (bump acc a) t]
      by_cases hat : a = t
      · subst hat
        rw [assocFind_bump_self, countTok_cons_self]
        cases hacc : assocFind acc a with
        | none =>
            simp only [hacc, Option.getD_none]
            simp
            omega
        | some n =>
            simp only [hacc, Option.getD_some]
            simp
            omega
      · rw [assocFind_bump_other _ _ (fun he => hat he.symm),
            countTok_cons_other hat]

theorem bump_nodup (acc : List (String × Nat)) (a : String)
    (h : (acc.map Prod.fst).Nodup) : ((bump acc a).map Prod.fst).Nodup := by
  unfold bump
  cases hf : assocFind acc a with
  | none =>
      dsimp only
      rw [List.map_append]
      refine List.Nodup.append h (List.nodup_singleton _) ?_
      intro x hx hy
      simp only [List.map_cons, List.map_nil, List.mem_singleton] at hy
      rw [hy] at hx
      exact ((assocFind_none_iff_not_mem acc a).mp hf) hx
  | some n =>
      dsimp only
      rw [assocReplace_map_fst]
      exact h

theorem foldl_bump_nodup :
    ∀ (toks : List String) (acc : List (String × Nat)),
      (acc.map Prod.fst).Nodup → ((toks.foldl bump acc).map Prod.fst).Nodup := by
  intro toks
  induction toks with
  | nil => intro acc h; exact h
  | cons a toks ih => intro acc h; exact ih (bump acc a) (bump_nodup acc a h)

theorem foldl_cond_bump (P : String → Bool) :
    ∀ (toks : List String) (acc : List (String × Nat)),
      toks.foldl (fun a tok => if P tok then bump a tok else a) acc
        = (toks.filter P).foldl bump acc := by
  intro toks
  induction toks with
  | nil => intro acc; rfl
  | cons a toks ih =>
      intro acc
      rw [List.foldl_cons, List.filter_cons]
      by_cases hp : P a
      · rw [if_pos hp, if_pos hp, List.foldl_cons]
        exact ih (bump acc a)
      · rw [if_neg hp, if_neg hp]
        exact ih acc

theorem foldl_flatten_eq {α β γ : Type} (f : β → γ → β) (g : α → List γ) :
    ∀ (ls : List α) (acc : β),
      ls.foldl (fun acc x => (g x).foldl f acc) acc
        = ((ls.map g).flatten).foldl f acc := by
  intro ls
  induction ls with
  | nil => intro acc; rfl
  | cons x ls ih =>
      intro acc
      rw [List.foldl_cons, List.map_cons, List.flatten_cons, List.foldl_append]
      exact ih _

theorem map_filter_flatten {α γ : Type} (P : γ → Bool) (g : α → List γ) :
    ∀ (ls : List α),
      (ls.map fun x => (g x).filter P).flatten = ((ls.map g).flatten).filter P := by
  intro ls
  induction ls with
  | nil => rfl
  | cons x ls ih =>
      rw [List.map_cons, List.flatten_cons, List.map_cons, List.flatten_cons,
        List.filter_append, ih]

/-- The dict built by suggest's nested loops is the bump-fold over the
spec-side matching-token stream. -/
theorem suggest_seen_eq (provider : String → Nat → List (String × String))
    (pfx : String) (limit : Nat) :
    (provider pfx (limit * 10)).foldl
      (fun acc dt => (pyWords dt.2).foldl
        (fun a tok =>
          if pyStartsWith (pyLower tok) (pyLower pfx) then bump a tok else a) acc) []
      = (matchingToks provider pfx limit).foldl bump [] := by
  have h1 : ∀ (acc : List (String × Nat)) (dt : String × String),
      (pyWords dt.2).foldl
        (fun a tok =>
          if pyStartsWith (pyLower tok) (pyLower pfx) then bump a tok else a) acc
        = ((pyWords dt.2).filter
            (fun tok => pyStartsWith (pyLower tok) (pyLower pfx))).foldl bump acc :=
    fun acc dt => foldl_cond_bump _ _ acc
  simp only [h1]
  have h2 := foldl_flatten_eq bump
      (fun dt : String × String => (pyWords dt.2).filter
        (fun tok => pyStartsWith (pyLower tok) (pyLower pfx)))
      (provider pfx (limit * 10)) []
  rw [h2]
  have h3 := map_filter_flatten
      (fun tok => pyStartsWith (pyLower tok) (pyLower pfx))
      (fun dt : String × String => pyWords dt.2)
      (provider pfx (limit * 10))
  rw [h3]
  rfl

/-- The non-strict placement order that suggRel certifies. -/
theorem suggRel_true {x y : String × Nat} (h : suggRel x y = true) :
    y.2 < x.2 ∨ (x.2 = y.2 ∧ (charListLt x.1.data y.1.data = true ∨ x.1 = y.1)) := by
  simp only [suggRel, strLtPy, Bool.or_eq_true, Bool.and_eq_true,
    decide_eq_true_eq] at h
  exact h

theorem suggRel_false {x y : String × Nat} (h : suggRel x y = false) :
    x.2 < y.2 ∨ (y.2 = x.2 ∧ (charListLt y.1.data x.1.data = true ∨ y.1 = x.1)) := by
  have hn : ¬ (y.2 < x.2 ∨
      (x.2 = y.2 ∧ (charListLt x.1.data y.1.data = true ∨ x.1 = y.1))) := by
    intro hcon
    have ht : suggRel x y = true := by
      simp only [suggRel, strLtPy, Bool.or_eq_true, Bool.and_eq_true,
        decide_eq_true_eq]
      exact hcon
    rw [h] at ht
    cases ht
  push_neg at hn
  obtain ⟨hn1, hn2⟩ := hn
  rcases Nat.lt_or_ge x.2 y.2 with hlt | hge
  · exact Or.inl hlt
  · have heq : x.2 = y.2 := Nat.le_antisymm hn1 hge
    obtain ⟨hnl, hns⟩ := hn2 heq
    right
    refine ⟨heq.symm, ?_⟩
    rcases charListLt_total y.1.data x.1.data with hl | hl | hl
    · exact Or.inl hl
    · exact absurd hl hnl
    · exact Or.inr (String.ext hl)

/-- C7 counterexample: matching is case-insensitive but accumulation is not —
the text "Apple apple" with prefix "ap" yields two separate suggestions
"Apple" and "apple" (count 1 each), although they differ only in letter case
(equal lowercase forms), instead of one accumulated token with count 2. -/
theorem C7_counterexample :
    suggest (fun _ _ => [("d", "Apple apple")]) "ap" 5 = (["Apple", "apple"], 1) ∧
    pyLower "Apple" = pyLower "apple" ∧ ("Apple" : String) ≠ "apple" := by
  exact ⟨by decide, by decide, by decide⟩

/-- C7 amended: an empty prefix returns an empty list with no provider call;
for a non-empty prefix, suggest calls the provider once, tokenizes each
fetched text by whitespace, matches tokens case-insensitively against the
prefix but counts them per exact (case-sensitive) token, and returns the
tokens ordered by descending count with ties broken by ascending
code-point-lexicographic token order, truncated to limit. -/
theorem C7_suggest_spec :
    (∀ (provider : String → Nat → List (String × String)) (limit : Nat),
        suggest provider "" limit = ([], 0)) ∧
    (∀ (provider : String → Nat → List (String × String)) (pfx : String)
        (limit : Nat), pfx ≠ "" →
        (suggest provider pfx limit).2 = 1 ∧
        ∃ pairs : List (String × Nat),
          (suggest provider pfx limit).1 = (pairs.map Prod.fst).take limit ∧
          pairs.Pairwise (fun a b =>
            b.2 < a.2 ∨ (a.2 = b.2 ∧ charListLt a.1.data b.1.data = true)) ∧
          (∀ p ∈ pairs,
            p.2 = countTok p.1 (matchingToks provider pfx limit) ∧ 0 < p.2) ∧
          (∀ t, 0 < countTok t (matchingToks provider pfx limit) →
            t ∈ pairs.map Prod.fst)) := by
  constructor
  · intro provider limit
    unfold suggest
    rw [if_pos rfl]
  · intro provider pfx limit hne
    unfold suggest
    rw [if_neg hne]
    dsimp only
    refine ⟨rfl, ?_⟩
    rw [suggest_seen_eq]
    set M := matchingToks provider pfx limit with hM
    set seen := M.foldl bump [] with hseen
    have hnd_seen : (seen.map Prod.fst).Nodup := foldl_bump_nodup M [] (by simp)
    have hperm : (sortBy suggRel seen).Perm seen := perm_sortBy suggRel seen
    have hRw : (sortBy suggRel seen).Pairwise (fun a b =>
        b.2 < a.2 ∨ (a.2 = b.2 ∧ (charListLt a.1.data b.1.data = true ∨ a.1 = b.1))) := by
      refine pairwise_sortBy suggRel ?_ ?_ ?_ seen
      · intro x y hxy
        exact suggRel_true hxy
      · intro x y hxy
        exact suggRel_false hxy
      · intro x a b hxa hab
        rcases suggRel_true hxa with h1' | ⟨heq1, h1'⟩
        · rcases hab with h2' | ⟨heq2, _⟩
          · exact Or.inl (Nat.lt_trans h2' h1')
          · exact Or.inl (heq2 ▸ h1')
        · rcases hab with h2' | ⟨heq2, h2'⟩
          · refine Or.inl ?_
            rw [heq1]
            exact h2'
          · right
            refine ⟨heq1.trans heq2, ?_⟩
            rcases h1' with hlt1 | heqs1
            · rcases h2' with hlt2 | heqs2
              · exact Or.inl (charListLt_trans _ _ _ hlt1 hlt2)
              · refine Or.inl ?_
                rw [← heqs2]
                exact hlt1
            · rcases h2' with hlt2 | heqs2
              · refine Or.inl ?_
                rw [heqs1]
                exact hlt2
              · exact Or.inr (heqs1.trans heqs2)
    refine ⟨sortBy suggRel seen, rfl, ?_, ?_, ?_⟩
    · have hnd_pairs : ((sortBy suggRel seen).map Prod.fst).Nodup :=
        ((hperm.map Prod.fst).nodup_iff).mpr hnd_seen
      have hne_pw : (sortBy suggRel seen).Pairwise (fun a b => a.1 ≠ b.1) :=
        List.pairwise_map.mp hnd_pairs
      refine (hRw.and hne_pw).imp ?_
      intro a b hab
      obtain ⟨hr, hneq⟩ := hab
      rcases hr with h' | ⟨heq, hlt_or_eq⟩
      · exact Or.inl h'
      · rcases hlt_or_eq with hlt | heqs
        · exact Or.inr ⟨heq, hlt⟩
        · exact absurd heqs hneq
    · intro p hp
      have hp_seen : (p.1, p.2) ∈ seen := hperm.mem_iff.mp hp
      have hfind : assocFind seen p.1 = some p.2 :=
        assocFind_mem_of_nodup hnd_seen hp_seen
      rw [hseen, foldl_bump_count M [] p.1] at hfind
      simp only [assocFind] at hfind
      by_cases hz : countTok p.1 M = 0
      · rw [if_pos hz] at hfind; cases hfind
      · rw [if_neg hz] at hfind
        simp only [Option.some.injEq] at hfind
        exact ⟨hfind.symm, by omega⟩
    · intro t ht
      have hfind := foldl_bump_count M [] t
      simp only [assocFind] at hfind
      rw [if_neg (by omega)] at hfind
      have hmem : t ∈ seen.map Prod.fst := by
        by_contra hcon
        have hnone : assocFind seen t = none :=
          (assocFind_none_iff_not_mem seen t).mpr hcon
        rw [hseen, hfind] at hnone
        cases hnone
      exact ((hperm.map Prod.fst).mem_iff).mpr hmem

/-- Witness for C7 at a concrete non-empty prefix. -/
theorem C7_suggest_spec_witness :
    (suggest (fun _ _ => [("D1", "hello world")]) "he" 3).2 = 1 :=
  (C7_suggest_spec.2 (fun _ _ => [("D1", "hello world")]) "he" 3 (by decide)).1

end GlobalSearch
